import Mathlib

/-!
Verification of the seam-carving image library (`src/img/`): the matrix and
image data model, the seam-carving pipeline (`energy`, `vertical_cost`,
`minimal_vertical_seam`, `remove_vertical_seam`, `seam_carve_width`), the
geometric transforms and the resize entry point, shallowly embedded as
executable Lean definitions translated from the Rust source.

Machine integers are modelled as `Nat` (for `usize`) and `Int` (for `isize`);
channel intensities are small, so overflow never occurs at the modelled call
sites.  Rust panics (failed `assert!`/`expect`/index out of bounds/usize
underflow) are modelled by `Option`, with `none` standing for the panic.
-/

set_option maxHeartbeats 1000000

namespace Snap

/-- `Matrix<T>` from `src/img/matrix.rs`: width, height, and a row-major
backing store.  The flat `Vec<T>` of the source (`datum[row * width + col]`)
is embedded as a list of rows, `datum[row][col]`; the source invariant
`datum.len() == width * height` becomes `Matrix.WF`. -/
structure Matrix (T : Type) where
  width : Nat
  height : Nat
  datum : List (List T)
  deriving Repr, DecidableEq

/-- The source invariant of `Matrix<T>`: the backing store holds exactly
`height` rows of `width` elements each (`datum.len() == width * height`,
row-major). -/
def Matrix.WF (m : Matrix T) : Prop :=
  m.datum.length = m.height ∧ ∀ row ∈ m.datum, row.length = m.width

instance (m : Matrix T) : Decidable m.WF := by
  unfold Matrix.WF; infer_instance

/-- The `Index` impl: `self.datum[row * self.width + col]`.  Out-of-range
reads panic in the source; the embedding returns `default`, and every modelled
call site is shown (or hypothesised) to stay in range. -/
def Matrix.idx [Inhabited T] (m : Matrix T) (r c : Nat) : T :=
  (m.datum.getD r []).getD c default

/-- `Matrix::new_filled(width, height, value)`. -/
def Matrix.new_filled (width height : Nat) (value : T) : Matrix T :=
  ⟨width, height, List.replicate height (List.replicate width value)⟩

/-- `Matrix::from_vec(width, height, data)`: `None` unless
`data.len() == width * height`; the embedding keeps the flat vector and cuts
it into its `height` rows of `width`. -/
def Matrix.from_vec (width height : Nat) (data : List T) : Option (Matrix T) :=
  if data.length ≠ width * height then none
  else some ⟨width, height, (List.range height).map fun r => (data.drop (r * width)).take width⟩

/-- Helper for matrices every cell of which is written once from its
coordinates (the source pattern `new_filled` followed by a nested loop
assigning each `(row, col)`). -/
def Matrix.ofFn (width height : Nat) (f : Nat → Nat → T) : Matrix T :=
  ⟨width, height, (List.range height).map fun r => (List.range width).map fun c => f r c⟩

/-- `Matrix::trim_width`: every row keeps its first `new_width` columns.
The source `assert!(new_width <= self.width)` holds at every call site
modelled here (`remove_vertical_seam`, `crop_left`, `crop_right`). -/
def Matrix.trim_width (m : Matrix T) (new_width : Nat) : Matrix T :=
  ⟨new_width, m.height, m.datum.map fun row => row.take new_width⟩

/-- `Matrix::fill_border`: overwrite row `0`, row `height - 1`, column `0` and
column `width - 1` with `value`.  The source's two index loops write exactly
the cells selected here (each written cell receives the same `value`, so the
write order is immaterial); for `width = 0` or `height = 0` with the other
dimension nonzero the source loops index out of bounds, and the only call
site (`energy`) is guarded accordingly. -/
def Matrix.fill_border (m : Matrix T) (value : T) : Matrix T :=
  ⟨m.width, m.height,
    (List.range m.height).map fun r =>
      (List.range m.width).map fun c =>
        if r = 0 ∨ r = m.height - 1 ∨ c = 0 ∨ c = m.width - 1 then value
        else (m.datum.getD r []).getD c value⟩

/-- The scan loop of `Matrix::min_in_row_range`: fold the accumulator
`(min_index, min_val)` over `k` further columns starting at `c`, replacing it
only on a strict decrease (`val < min_val`), which is what makes ties resolve
to the smallest column index. -/
def Matrix.minScanLoop [LinearOrder T] [Inhabited T] (m : Matrix T) (row : Nat) :
    Nat → Nat → Nat × T → Nat × T
  | 0, _, acc => acc
  | k + 1, c, acc =>
      let v := m.idx row c
      Matrix.minScanLoop m row k (c + 1) (if v < acc.2 then (c, v) else acc)

/-- `Matrix::min_in_row_range(row, column_start, column_end)` from the source:
`None` when `row >= height`, `column_start >= column_end` or
`column_end > width`, else the left-to-right scan starting from
`(column_start, self[(row, column_start)])`. -/
def Matrix.min_in_row_range [LinearOrder T] [Inhabited T] (m : Matrix T)
    (row column_start column_end : Nat) : Option (Nat × T) :=
  if row ≥ m.height ∨ column_start ≥ column_end ∨ column_end > m.width then none
  else some (m.minScanLoop row (column_end - (column_start + 1)) (column_start + 1)
    (column_start, m.idx row column_start))

/-- `Matrix::min_in_row`. -/
def Matrix.min_in_row [LinearOrder T] [Inhabited T] (m : Matrix T) (row : Nat) :
    Option (Nat × T) :=
  m.min_in_row_range row 0 m.width

/-- Swap the entries at `i` and `j` (`Vec::swap`): both old values are read
before either write. -/
def listSwap [Inhabited α] (l : List α) (i j : Nat) : List α :=
  (l.set i (l.getD j default)).set j (l.getD i default)

/-- `Matrix::mirror_y`: for every row, swap columns `col` and
`width - 1 - col` for `col < width / 2`.  The source's swaps act inside one
row of the flat store, hence row by row here. -/
def Matrix.mirror_y [Inhabited T] (m : Matrix T) : Matrix T :=
  ⟨m.width, m.height,
    m.datum.map fun row =>
      (List.range (m.width / 2)).foldl (fun row c => listSwap row c (m.width - 1 - c)) row⟩

/-- `Matrix::mirror_x`: for `row < height / 2`, swap rows `row` and
`height - 1 - row` (the source swaps the two rows cell by cell over every
column, which exchanges the full rows). -/
def Matrix.mirror_x (m : Matrix T) : Matrix T :=
  ⟨m.width, m.height,
    (List.range (m.height / 2)).foldl (fun d r => listSwap d r (m.height - 1 - r)) m.datum⟩

/-- `Matrix::transpose`: `new_data[col * height + row] = self[(row, col)]`
and the dimensions swap, i.e. the new cell `(r, c)` holds the old `(c, r)`.
(The source seeds the new vector with `self.datum[0]`, which panics when the
matrix is empty; the image-level claims about `transpose` therefore assume
nonzero dimensions.) -/
def Matrix.transpose [Inhabited T] (m : Matrix T) : Matrix T :=
  Matrix.ofFn m.height m.width fun r c => m.idx c r

/-- `PixelRGB` from `src/img/utils.rs`. -/
structure PixelRGB where
  r : Nat
  g : Nat
  b : Nat
  deriving Repr, DecidableEq

/-- `PixelRGB::squared_difference` (isize arithmetic, modelled in `Int`). -/
def PixelRGB.squared_difference (a other : PixelRGB) : Int :=
  let dr : Int := (a.r : Int) - (other.r : Int)
  let dg : Int := (a.g : Int) - (other.g : Int)
  let db : Int := (a.b : Int) - (other.b : Int)
  dr * dr + dg * dg + db * db

/-- `PPMFormat` (from `src/img/io.rs`), carried by every `Image`. -/
inductive PPMFormat where
  | P3
  | P6
  deriving Repr, DecidableEq

/-- `Image` from `src/img/image.rs`: a bare public record of three channel
matrices plus dimensions, max intensity and format — the source has no
validated constructor taking three matrices, so nothing in the type itself
ties the channel shapes together (that is the point of claim C8). -/
structure Image where
  width : Nat
  height : Nat
  max_intensity : Nat
  red_channel : Matrix Nat
  blue_channel : Matrix Nat
  green_channel : Matrix Nat
  format : PPMFormat
  deriving Repr, DecidableEq

/-- The shared-shape invariant of §4.2: all three channels are well-formed
matrices whose width and height equal the image's own fields. -/
def Image.WF (img : Image) : Prop :=
  img.red_channel.WF ∧ img.green_channel.WF ∧ img.blue_channel.WF ∧
  img.red_channel.width = img.width ∧ img.red_channel.height = img.height ∧
  img.green_channel.width = img.width ∧ img.green_channel.height = img.height ∧
  img.blue_channel.width = img.width ∧ img.blue_channel.height = img.height

instance (img : Image) : Decidable img.WF := by
  unfold Image.WF; infer_instance

/-- `Image::new(width, height, intensity, format)`: all channels zero. -/
def Image.new (width height intensity : Nat) (format : PPMFormat) : Image :=
  { width := width, height := height, max_intensity := intensity,
    red_channel := Matrix.new_filled width height 0,
    blue_channel := Matrix.new_filled width height 0,
    green_channel := Matrix.new_filled width height 0,
    format := format }

/-- `Image::get_pixel`: `None` out of bounds, else the triple read at the same
`(row, col)` across the three channels. -/
def Image.get_pixel (img : Image) (row col : Nat) : Option PixelRGB :=
  if row < img.height ∧ col < img.width then
    some ⟨img.red_channel.idx row col, img.green_channel.idx row col,
          img.blue_channel.idx row col⟩
  else none

/-- Write one cell of a channel (`self.red_channel[(row, col)] = v`). -/
def Matrix.setAt (m : Matrix T) (r c : Nat) (v : T) : Matrix T :=
  ⟨m.width, m.height, m.datum.set r ((m.datum.getD r []).set c v)⟩

/-- `Image::set_pixel`: guarded in-bounds write to all three channels. -/
def Image.set_pixel (img : Image) (row col : Nat) (color : PixelRGB) : Image :=
  if row < img.height ∧ col < img.width then
    { img with
      red_channel := img.red_channel.setAt row col color.r,
      green_channel := img.green_channel.setAt row col color.g,
      blue_channel := img.blue_channel.setAt row col color.b }
  else img

/-- The channel transform of `Image::rotate_left` on an image of dimensions
`w × h`: the loop writes `new[(w - 1 - col, row)] = old[(row, col)]` into a
`Matrix::new_filled(height, width, 0)` (new width `h`, new height `w`), so
cell `(nr, nc)` of the result holds the old cell `(nc, w - 1 - nr)`. -/
def Matrix.rotateLeftC [Inhabited T] (m : Matrix T) (w h : Nat) : Matrix T :=
  Matrix.ofFn h w fun nr nc => m.idx nc (w - 1 - nr)

/-- The channel transform of `Image::rotate_right` on a `w × h` image: the
loop writes `new[(col, h - 1 - row)] = old[(row, col)]`, so cell `(nr, nc)`
holds the old cell `(h - 1 - nc, nr)`. -/
def Matrix.rotateRightC [Inhabited T] (m : Matrix T) (w h : Nat) : Matrix T :=
  Matrix.ofFn h w fun nr nc => m.idx (h - 1 - nc) nr

/-- `Image::rotate_left`: early return on a zero dimension, otherwise all
three channels are rebuilt and the dimensions swap. -/
def Image.rotate_left (img : Image) : Image :=
  if img.width = 0 ∨ img.height = 0 then img
  else
    { img with
      red_channel := img.red_channel.rotateLeftC img.width img.height,
      green_channel := img.green_channel.rotateLeftC img.width img.height,
      blue_channel := img.blue_channel.rotateLeftC img.width img.height,
      height := img.width, width := img.height }

/-- `Image::rotate_right`. -/
def Image.rotate_right (img : Image) : Image :=
  if img.width = 0 ∨ img.height = 0 then img
  else
    { img with
      red_channel := img.red_channel.rotateRightC img.width img.height,
      green_channel := img.green_channel.rotateRightC img.width img.height,
      blue_channel := img.blue_channel.rotateRightC img.width img.height,
      height := img.width, width := img.height }

/-- `Image::mirror_x`. -/
def Image.mirror_x (img : Image) : Image :=
  { img with
    red_channel := img.red_channel.mirror_x,
    green_channel := img.green_channel.mirror_x,
    blue_channel := img.blue_channel.mirror_x }

/-- `Image::mirror_y`. -/
def Image.mirror_y (img : Image) : Image :=
  { img with
    red_channel := img.red_channel.mirror_y,
    green_channel := img.green_channel.mirror_y,
    blue_channel := img.blue_channel.mirror_y }

/-- `Image::transpose`: transpose each channel and swap the dimension
fields. -/
def Image.transpose (img : Image) : Image :=
  { img with
    red_channel := img.red_channel.transpose,
    green_channel := img.green_channel.transpose,
    blue_channel := img.blue_channel.transpose,
    width := img.height, height := img.width }

/-- The `get_pixel(..).unwrap()` pattern: every modelled call site is in
bounds, so the default is never produced there. -/
def Image.pixelOr0 (img : Image) (row col : Nat) : PixelRGB :=
  (img.get_pixel row col).getD ⟨0, 0, 0⟩

/-- The dual-gradient value computed for an interior cell of `energy`:
squared RGB distance of the north/south neighbours plus squared RGB distance
of the east/west neighbours. -/
def Image.energyVal (img : Image) (row col : Nat) : Int :=
  let n := img.pixelOr0 (row - 1) col
  let s := img.pixelOr0 (row + 1) col
  let e := img.pixelOr0 row (col + 1)
  let w := img.pixelOr0 row (col - 1)
  n.squared_difference s + e.squared_difference w

/-- The interior cells visited by the `energy` loops, in loop order:
`row` in `1..height-1` (i.e. `height - 2` values from `1`), `col` in
`1..width-1`. -/
def Image.interiorCells (img : Image) : List (Nat × Nat) :=
  (List.range' 1 (img.height - 2)).flatMap fun r =>
    (List.range' 1 (img.width - 2)).map fun c => (r, c)

/-- The running maximum `max_energy` of the `energy` loops: starts at `0` and
is replaced whenever `energy_val > max_energy`. -/
def Image.maxInteriorEnergy (img : Image) : Int :=
  (img.interiorCells.map fun rc => img.energyVal rc.1 rc.2).foldl
    (fun m v => if v > m then v else m) 0

/-- The border value of `energy`: `max_energy`, bumped to `1` when it is
still `0` after the interior pass. -/
def Image.borderFill (img : Image) : Int :=
  if img.maxInteriorEnergy = 0 then 1 else img.maxInteriorEnergy

/-- `Image::energy`.  For `width = 0` or `height = 0` the source panics —
with `height = 0` the range `1..self.height - 1` underflows `usize`; with
`width = 0` and the interior row loop nonempty the inner range underflows or
`get_pixel(..).unwrap()` unwraps `None`; and in the remaining zero cases
`fill_border` indexes an empty backing vector (`self[(height - 1, col)]` /
`self[(row, width - 1)]` on no data).  `none` models those panics.  Otherwise
the matrix starts as `new_filled(width, height, 0)`, every interior cell
(`1 ≤ row < height - 1`, `1 ≤ col < width - 1`) receives its dual-gradient
value, and `fill_border` overwrites the border with `borderFill`. -/
def Image.energy (img : Image) : Option (Matrix Int) :=
  if img.width = 0 ∨ img.height = 0 then none
  else
    let base : Matrix Int :=
      Matrix.ofFn img.width img.height fun r c =>
        if 1 ≤ r ∧ r < img.height - 1 ∧ 1 ≤ c ∧ c < img.width - 1 then
          img.energyVal r c
        else 0
    some (base.fill_border img.borderFill)

/-- The three-candidate minimum of `vertical_cost`: start from
`cost[row-1][col]`, then take `cost[row-1][col-1]` if `col > 0` and
`cost[row-1][col+1]` if `col < width - 1` into the minimum. -/
def minWindow (prev : List Int) (col w : Nat) : Int :=
  let m := prev.getD col 0
  let m := if 0 < col then min m (prev.getD (col - 1) 0) else m
  let m := if col < w - 1 then min m (prev.getD (col + 1) 0) else m
  m

/-- Row `r` of the cost matrix of `vertical_cost` built over energy matrix
`e` and width `w`: row `0` copies row `0` of the energy, and each later row
adds the windowed minimum of the previous cost row. -/
def costRowFun (e : Matrix Int) (w : Nat) : Nat → List Int
  | 0 => (List.range w).map fun c => e.idx 0 c
  | r + 1 =>
      (List.range w).map fun c => e.idx (r + 1) c + minWindow (costRowFun e w r) c w

/-- `Image::vertical_cost`: `energy` followed by the top-down dynamic
program, one row at a time, into a `width × height` matrix. -/
def Image.vertical_cost (img : Image) : Option (Matrix Int) :=
  (img.energy).map fun e =>
    ⟨img.width, img.height, (List.range img.height).map (costRowFun e img.width)⟩

/-- The upward backtrace loop of `minimal_vertical_seam`: given the current
column at row `n`, choose for row `n - 1` the minimum of the cost row over
`[current_col.saturating_sub(1), min(current_col + 2, width))` (leftmost on
ties, via `min_in_row_range`) and recurse; the result lists the chosen
columns for rows `0 .. n-1` in row order. -/
def backtraceRows (cost : Matrix Int) (w : Nat) : Nat → Nat → Option (List Nat)
  | _, 0 => some []
  | current, n + 1 =>
      (cost.min_in_row_range n (current - 1) (min (current + 2) w)).bind fun p =>
        (backtraceRows cost w p.1 n).map fun l => l ++ [p.1]

/-- `Image::minimal_vertical_seam`: bottom-row minimum (leftmost tie-break),
then the windowed backtrace; entry `row` of the result is the seam column of
that row.  The source's two `expect`s become `Option` binds; both always
succeed for nonzero dimensions. -/
def Image.minimal_vertical_seam (img : Image) : Option (List Nat) :=
  (img.vertical_cost).bind fun cost =>
    (cost.min_in_row_range (img.height - 1) 0 img.width).bind fun p =>
      (backtraceRows cost img.width p.1 (img.height - 1)).map fun l => l ++ [p.1]

/-- The row-shift loop of `remove_vertical_seam` and `crop_left`:
`k` iterations of `row[c] = row[c + off]` with `c` ascending.  Since
`off ≥ 1`, each read is at an index not yet written. -/
def shiftLoop [Inhabited α] (off : Nat) : Nat → List α → Nat → List α
  | 0, row, _ => row
  | k + 1, row, c => shiftLoop off k (row.set c (row.getD (c + off) default)) (c + 1)

/-- `Image::remove_vertical_seam`: compute the seam, check the source's
`assert!`s (seam length equals the height; every seam column is below the
width — both always hold, and a violation would panic, modelled `none`),
shift every row left from its seam column (`for col in seam_col..width-1:
row[col] = row[col+1]`), decrement the width and trim every channel. -/
def Image.remove_vertical_seam (img : Image) : Option Image :=
  (img.minimal_vertical_seam).bind fun seam =>
    if seam.length = img.height ∧ ∀ s ∈ seam, s < img.width then
      let w := img.width
      let shiftAll : Matrix Nat → Matrix Nat := fun m =>
        ⟨m.width, m.height,
          List.zipWith (fun row s => shiftLoop 1 (w - 1 - s) row s) m.datum seam⟩
      some { img with
        width := w - 1,
        red_channel := (shiftAll img.red_channel).trim_width (w - 1),
        green_channel := (shiftAll img.green_channel).trim_width (w - 1),
        blue_channel := (shiftAll img.blue_channel).trim_width (w - 1) }
    else none

/-- The removal loop of `seam_carve_width`: `n` sequential seam removals. -/
def Image.removeSeams : Nat → Image → Option Image
  | 0, img => some img
  | n + 1, img => img.remove_vertical_seam.bind (Image.removeSeams n)

/-- `Image::seam_carve_width`: no-op when the width already matches,
otherwise `width.saturating_sub(new_width)` removals. -/
def Image.seam_carve_width (img : Image) (new_width : Nat) : Option Image :=
  if img.width = new_width then some img
  else Image.removeSeams (img.width - new_width) img

/-- `Image::seam_carve_height`: rotate left, carve width, rotate right. -/
def Image.seam_carve_height (img : Image) (new_height : Nat) : Option Image :=
  (img.rotate_left.seam_carve_width new_height).map Image.rotate_right

/-- `CropMethod` from `src/img/crop.rs`. -/
inductive CropMethod where
  | Left | Right | LeftRight
  | Top | Bottom | TopBottom
  | LeftTop | LeftBottom | RightTop | RightBottom
  | Rectangular
  deriving Repr, DecidableEq

/-- `ScaleMethod` from `src/img/scale.rs`. -/
inductive ScaleMethod where
  | Linear
  | Bilinear
  deriving Repr, DecidableEq

/-- `Image::crop_left`: early return when `new_width >= width` or
`new_width == 0`; otherwise every row is shifted left by
`cols_to_trim = width - new_width` over `col in 0..new_width` (reads stay
ahead of writes) and every channel is trimmed. -/
def Image.crop_left (img : Image) (new_width : Nat) : Image :=
  if new_width ≥ img.width ∨ new_width = 0 then img
  else
    let cols_to_trim := img.width - new_width
    let shiftAll : Matrix Nat → Matrix Nat := fun m =>
      ⟨m.width, m.height, m.datum.map fun row => shiftLoop cols_to_trim new_width row 0⟩
    { img with
      width := new_width,
      red_channel := (shiftAll img.red_channel).trim_width new_width,
      green_channel := (shiftAll img.green_channel).trim_width new_width,
      blue_channel := (shiftAll img.blue_channel).trim_width new_width }

/-- `Image::crop_right`: early return as in `crop_left`, else just trim. -/
def Image.crop_right (img : Image) (new_width : Nat) : Image :=
  if new_width ≥ img.width ∨ new_width = 0 then img
  else
    { img with
      width := new_width,
      red_channel := img.red_channel.trim_width new_width,
      green_channel := img.green_channel.trim_width new_width,
      blue_channel := img.blue_channel.trim_width new_width }

/-- `Image::crop_top`: early return when `new_height >= height` or `0`;
otherwise row `row < new_height` receives old row `row + rows_to_trim`
(whole-row copies, modelled with the same ascending shift loop at row level)
and the flat stores are truncated to `new_height` rows. -/
def Image.crop_top (img : Image) (new_height : Nat) : Image :=
  if new_height ≥ img.height ∨ new_height = 0 then img
  else
    let rows_to_trim := img.height - new_height
    let shiftRows : Matrix Nat → Matrix Nat := fun m =>
      ⟨m.width, m.height, shiftLoop rows_to_trim new_height m.datum 0⟩
    { img with
      height := new_height,
      red_channel := ⟨img.red_channel.width, new_height,
        ((shiftRows img.red_channel).datum).take new_height⟩,
      green_channel := ⟨img.green_channel.width, new_height,
        ((shiftRows img.green_channel).datum).take new_height⟩,
      blue_channel := ⟨img.blue_channel.width, new_height,
        ((shiftRows img.blue_channel).datum).take new_height⟩ }

/-- `Image::crop_bottom`: early return, else set the height and truncate the
stores to the first `new_height` rows. -/
def Image.crop_bottom (img : Image) (new_height : Nat) : Image :=
  if new_height ≥ img.height ∨ new_height = 0 then img
  else
    { img with
      height := new_height,
      red_channel := ⟨img.red_channel.width, new_height, img.red_channel.datum.take new_height⟩,
      green_channel := ⟨img.green_channel.width, new_height, img.green_channel.datum.take new_height⟩,
      blue_channel := ⟨img.blue_channel.width, new_height, img.blue_channel.datum.take new_height⟩ }

/-- `Image::crop_rect`: fresh `new_width × new_height` matrices with
`new[(row, col)] = old[(y_offset + row, x_offset + col)]`, committed together
with the dimensions.  The source reads panic when the offset rectangle leaves
the image; claims about `crop_rect` assume it stays inside. -/
def Image.crop_rect (img : Image) (new_width new_height x_offset y_offset : Nat) : Image :=
  { img with
    width := new_width,
    height := new_height,
    red_channel := Matrix.ofFn new_width new_height fun r c =>
      img.red_channel.idx (y_offset + r) (x_offset + c),
    green_channel := Matrix.ofFn new_width new_height fun r c =>
      img.green_channel.idx (y_offset + r) (x_offset + c),
    blue_channel := Matrix.ofFn new_width new_height fun r c =>
      img.blue_channel.idx (y_offset + r) (x_offset + c) }

/-- `Image::crop_width`: `Left`, `Right` or `LeftRight` (an even split via
`crop_rect`); any other method panics in the source (`none` here). -/
def Image.crop_width (img : Image) (new_width : Nat) (method : CropMethod) : Option Image :=
  match method with
  | .Left => some (img.crop_left new_width)
  | .Right => some (img.crop_right new_width)
  | .LeftRight =>
      let total_trim := img.width - new_width
      let left_trim := total_trim / 2
      some (img.crop_rect new_width img.height left_trim 0)
  | _ => none

/-- `Image::crop_height`: `Top`, `Bottom` or `TopBottom`; others panic. -/
def Image.crop_height (img : Image) (new_height : Nat) (method : CropMethod) : Option Image :=
  match method with
  | .Top => some (img.crop_top new_height)
  | .Bottom => some (img.crop_bottom new_height)
  | .TopBottom =>
      let total_trim := img.height - new_height
      let top_trim := total_trim / 2
      some (img.crop_rect img.width new_height 0 top_trim)
  | _ => none

/-- `Image::linear_scale`: fresh target-size matrices with the source pixel
at `(new_row * height / new_height, new_col * width / new_width)`.  Only
reached through `scale`, whose guard keeps all four dimensions nonzero, so
the divisions and reads are well defined. -/
def Image.linear_scale (img : Image) (new_width new_height : Nat) : Image :=
  { img with
    width := new_width,
    height := new_height,
    red_channel := Matrix.ofFn new_width new_height fun r c =>
      (img.pixelOr0 (r * img.height / new_height) (c * img.width / new_width)).r,
    green_channel := Matrix.ofFn new_width new_height fun r c =>
      (img.pixelOr0 (r * img.height / new_height) (c * img.width / new_width)).g,
    blue_channel := Matrix.ofFn new_width new_height fun r c =>
      (img.pixelOr0 (r * img.height / new_height) (c * img.width / new_width)).b }

/-- `Image::bilinear_scale`.  The per-target-pixel color is computed in the
source with `f64` interpolation (floor, fractional weights, rounding), which
has no faithful image in this integer embedding; it is abstracted as the
parameter `bil`, applied at `(new_y, new_x)` exactly as the source assigns
its interpolated triple.  The shape structure — three fresh
`new_width × new_height` matrices committed together with the dimensions —
is the source's. -/
def Image.bilinear_scale (img : Image) (new_width new_height : Nat)
    (bil : Nat → Nat → PixelRGB) : Image :=
  { img with
    width := new_width,
    height := new_height,
    red_channel := Matrix.ofFn new_width new_height fun r c => (bil r c).r,
    green_channel := Matrix.ofFn new_width new_height fun r c => (bil r c).g,
    blue_channel := Matrix.ofFn new_width new_height fun r c => (bil r c).b }

/-- `Image::scale`: early return when any of the four dimensions is zero,
else dispatch on the method (`bil` is the abstracted bilinear kernel). -/
def Image.scale (img : Image) (new_width new_height : Nat) (method : ScaleMethod)
    (bil : Nat → Nat → PixelRGB) : Image :=
  if img.width = 0 ∨ img.height = 0 ∨ new_width = 0 ∨ new_height = 0 then img
  else
    match method with
    | .Linear => img.linear_scale new_width new_height
    | .Bilinear => img.bilinear_scale new_width new_height bil

/-- `Image::resize`: grow via `scale`, shrink via the per-axis crop; a shrink
whose crop method is absent hits `Option::expect` in the source
(MissingCropMethod), modelled `none`.  A wrong-axis crop method panics inside
`crop_width`/`crop_height`, also `none`. -/
def Image.resize (img : Image) (target_width target_height : Nat) (method : ScaleMethod)
    (bil : Nat → Nat → PixelRGB) (crop_x crop_y : Option CropMethod) : Option Image :=
  (if target_width > img.width then
    some (img.scale target_width img.height method bil)
  else if target_width < img.width then
    match crop_x with
    | none => none
    | some m => img.crop_width target_width m
  else some img).bind fun img1 =>
    if target_height > img1.height then
      some (img1.scale img1.width target_height method bil)
    else if target_height < img1.height then
      match crop_y with
      | none => none
      | some m => img1.crop_height target_height m
    else some img1

/-! ### List-level helper lemmas -/

theorem getD_map_range {α : Type} (f : Nat → α) (d : α) {c w : Nat} (h : c < w) :
    (((List.range w).map f).getD c d) = f c := by
  simp [List.getD, List.getElem?_map, List.getElem?_range, h]

theorem length_map_range {α : Type} (f : Nat → α) (w : Nat) :
    ((List.range w).map f).length = w := by simp

theorem getD_eq_default {α : Type} (l : List α) (d : α) {j : Nat} (h : l.length ≤ j) :
    l.getD j d = d := by
  simp [List.getD, List.getElem?_eq_none h]

theorem eq_of_length_getD {α : Type} (d : α) :
    ∀ (l₁ l₂ : List α), l₁.length = l₂.length →
      (∀ j, j < l₁.length → l₁.getD j d = l₂.getD j d) → l₁ = l₂
  | [], [], _, _ => rfl
  | [], _ :: _, h, _ => by simp at h
  | _ :: _, [], h, _ => by simp at h
  | a :: l₁, b :: l₂, h, hj => by
    have h0 := hj 0 (by simp)
    simp only [List.getD_cons_zero] at h0
    have ht : l₁ = l₂ := by
      refine eq_of_length_getD d l₁ l₂ (by simpa using h) fun j hjl => ?_
      have := hj (j + 1) (by simpa using Nat.succ_lt_succ hjl)
      simpa using this
    rw [h0, ht]

theorem getD_set_ne' {α : Type} (v d : α) (l : List α) {i j : Nat} (hij : i ≠ j) :
    (l.set i v).getD j d = l.getD j d := by
  simp [List.getD, List.getElem?_set_ne hij]

theorem getD_set_self' {α : Type} (v d : α) (l : List α) (i : Nat) :
    (l.set i v).getD i d = if i < l.length then v else d := by
  rcases Nat.lt_or_ge i l.length with hi | hi
  · simp [List.getD, List.getElem?_set_self, hi]
  · rw [getD_eq_default _ _ (by simpa using hi)]
    simp [Nat.not_lt.mpr hi]

theorem getD_take {α : Type} (d : α) (l : List α) (n j : Nat) (h : j < n) :
    (l.take n).getD j d = l.getD j d := by
  simp [List.getD, List.getElem?_take_of_lt h]

theorem getD_eraseIdx_lt {α : Type} (d : α) (l : List α) (i j : Nat) (h : j < i) :
    (l.eraseIdx i).getD j d = l.getD j d := by
  simp [List.getD, List.getElem?_eraseIdx_of_lt l i j h]

theorem getD_eraseIdx_ge {α : Type} (d : α) (l : List α) (i j : Nat) (h : i ≤ j) :
    (l.eraseIdx i).getD j d = l.getD (j + 1) d := by
  simp [List.getD, List.getElem?_eraseIdx_of_ge l i j h]

theorem getD_zipWith {α β γ : Type} (f : α → β → γ) (da : α) (db : β) (dc : γ) :
    ∀ (as : List α) (bs : List β) (j : Nat), j < as.length → j < bs.length →
      (List.zipWith f as bs).getD j dc = f (as.getD j da) (bs.getD j db)
  | [], _, _, ha, _ => by simp at ha
  | _ :: _, [], _, _, hb => by simp at hb
  | a :: as, b :: bs, 0, _, _ => by simp
  | a :: as, b :: bs, j + 1, ha, hb => by
    simpa using getD_zipWith f da db dc as bs j (by simpa using ha) (by simpa using hb)

theorem length_zipWith {α β γ : Type} (f : α → β → γ) (as : List α) (bs : List β) :
    (List.zipWith f as bs).length = min as.length bs.length := by
  simp

theorem getD_map {α β : Type} (f : α → β) (da : α) (db : β) :
    ∀ (l : List α) (j : Nat), j < l.length → (l.map f).getD j db = f (l.getD j da) := by
  intro l j hj
  simp [List.getD, List.getElem?_map, List.getElem?_eq_getElem hj]

/-- `shiftLoop` preserves the length. -/
theorem shiftLoop_length {α : Type} [Inhabited α] (off : Nat) :
    ∀ (k : Nat) (row : List α) (c : Nat), (shiftLoop off k row c).length = row.length
  | 0, _, _ => rfl
  | k + 1, row, c => by
    rw [shiftLoop, shiftLoop_length off k]
    simp

/-- Closed form of the ascending shift loop: positions `c ≤ j < c + k` hold
the original value `off` places to the right, everything else is
untouched (valid because every read happens at an index larger than every
write so far, `off ≥ 1`). -/
theorem shiftLoop_getD {α : Type} [Inhabited α] (off : Nat) (hoff : 1 ≤ off) :
    ∀ (k : Nat) (row : List α) (c j : Nat),
      (shiftLoop off k row c).getD j default =
        if c ≤ j ∧ j < c + k then row.getD (j + off) default else row.getD j default
  | 0, row, c, j => by
    simp only [shiftLoop]
    rw [if_neg (by omega)]
  | k + 1, row, c, j => by
    rw [shiftLoop, shiftLoop_getD off hoff k]
    rcases Nat.lt_trichotomy j c with hjc | hjc | hjc
    · have h1 : ¬(c + 1 ≤ j ∧ j < c + 1 + k) := by omega
      have h2 : ¬(c ≤ j ∧ j < c + (k + 1)) := by omega
      simp only [h1, h2, if_false]
      exact getD_set_ne' _ _ _ (by omega)
    · subst hjc
      have h1 : ¬(j + 1 ≤ j ∧ j < j + 1 + k) := by omega
      have h2 : (j ≤ j ∧ j < j + (k + 1)) := by omega
      simp only [h1, h2, if_false, if_true]
      rw [getD_set_self']
      rcases Nat.lt_or_ge j row.length with hj | hj
      · simp [hj]
      · simp only [Nat.not_lt.mpr hj, if_false]
        rw [getD_eq_default _ _ (le_trans hj (Nat.le_add_right _ _))]
        simp
    · rcases Nat.lt_or_ge j (c + 1 + k) with hjk | hjk
      · have h1 : (c + 1 ≤ j ∧ j < c + 1 + k) := by omega
        have h2 : (c ≤ j ∧ j < c + (k + 1)) := by omega
        simp only [h1, h2, if_true]
        exact getD_set_ne' _ _ _ (by omega)
      · have h1 : ¬(c + 1 ≤ j ∧ j < c + 1 + k) := by omega
        have h2 : ¬(c ≤ j ∧ j < c + (k + 1)) := by omega
        simp only [h1, h2, if_false]
        exact getD_set_ne' _ _ _ (by omega)

/-! ### Matrix helper lemmas -/

theorem Matrix.ofFn_width (w h : Nat) (f : Nat → Nat → T) : (Matrix.ofFn w h f).width = w := rfl

theorem Matrix.ofFn_height (w h : Nat) (f : Nat → Nat → T) : (Matrix.ofFn w h f).height = h := rfl

theorem Matrix.ofFn_idx [Inhabited T] (w h : Nat) (f : Nat → Nat → T) {r c : Nat}
    (hr : r < h) (hc : c < w) : (Matrix.ofFn w h f).idx r c = f r c := by
  unfold Matrix.ofFn Matrix.idx
  rw [getD_map_range _ _ hr, getD_map_range _ _ hc]

theorem Matrix.ofFn_WF (w h : Nat) (f : Nat → Nat → T) : (Matrix.ofFn w h f).WF := by
  constructor
  · simp [Matrix.ofFn]
  · intro row hrow
    simp only [Matrix.ofFn, List.mem_map] at hrow
    obtain ⟨r, -, rfl⟩ := hrow
    simp [Matrix.ofFn]

theorem Matrix.WF_row_length {m : Matrix T} (hm : m.WF) {r : Nat} (hr : r < m.height) :
    (m.datum.getD r []).length = m.width := by
  obtain ⟨hlen, hrow⟩ := hm
  have hrl : r < m.datum.length := by omega
  have : m.datum.getD r [] = m.datum[r] := by
    simp [List.getD, List.getElem?_eq_getElem hrl]
  rw [this]
  exact hrow _ (m.datum.getElem_mem hrl)

/-- A well-formed matrix is its own cell-by-cell reconstruction. -/
theorem Matrix.ofFn_idx_eq_self [Inhabited T] {m : Matrix T} (hm : m.WF) :
    Matrix.ofFn m.width m.height m.idx = m := by
  obtain ⟨hlen, hrow⟩ := hm
  obtain ⟨w, h, datum⟩ := m
  simp only [Matrix.ofFn, Matrix.mk.injEq, true_and]
  simp only at hlen hrow
  refine eq_of_length_getD [] _ _ (by simp [hlen]) fun r hr => ?_
  rw [length_map_range] at hr
  rw [getD_map_range _ _ hr]
  have hrd : r < datum.length := by omega
  have hget : datum.getD r [] = datum[r] := by
    simp [List.getD, List.getElem?_eq_getElem hrd]
  have hwl : datum[r].length = w := hrow _ (datum.getElem_mem hrd)
  rw [hget]
  refine eq_of_length_getD default _ _ (by simp [hwl]) fun c hc => ?_
  rw [length_map_range] at hc
  rw [getD_map_range _ _ hc]
  simp [Matrix.idx, List.getD, List.getElem?_eq_getElem hrd]

theorem Matrix.trim_width_WF {m : Matrix T} (hm : m.WF) {nw : Nat} (hnw : nw ≤ m.width) :
    (m.trim_width nw).WF := by
  obtain ⟨hlen, hrow⟩ := hm
  refine ⟨by simp [Matrix.trim_width, hlen], fun row hmem => ?_⟩
  simp only [Matrix.trim_width, List.mem_map] at hmem
  obtain ⟨row₀, hmem₀, rfl⟩ := hmem
  simp [Matrix.trim_width, hrow _ hmem₀, Nat.min_eq_left hnw]

/-! ### `min_in_row_range` specification -/

/-- Invariant carried by the scan of `min_in_row_range` over the columns
`[column_start, pos)`: the accumulator is the leftmost minimum seen so far. -/
def ScanInv [LinearOrder T] [Inhabited T] (m : Matrix T) (row cs pos : Nat)
    (acc : Nat × T) : Prop :=
  cs ≤ acc.1 ∧ acc.1 < pos ∧ acc.2 = m.idx row acc.1 ∧
  (∀ j, cs ≤ j → j < pos → acc.2 ≤ m.idx row j) ∧
  (∀ j, cs ≤ j → j < acc.1 → acc.2 < m.idx row j)

theorem minScanLoop_inv [LinearOrder T] [Inhabited T] (m : Matrix T) (row cs : Nat) :
    ∀ (k c : Nat) (acc : Nat × T), ScanInv m row cs c acc →
      ScanInv m row cs (c + k) (m.minScanLoop row k c acc)
  | 0, c, acc, hinv => by simpa using hinv
  | k + 1, c, acc, hinv => by
    rw [Matrix.minScanLoop]
    have hstep : ScanInv m row cs (c + 1) (if m.idx row c < acc.2 then (c, m.idx row c) else acc) := by
      obtain ⟨h1, h2, h3, h4, h5⟩ := hinv
      by_cases hlt : m.idx row c < acc.2
      · rw [if_pos hlt]
        refine ⟨by omega, by omega, rfl, ?_, ?_⟩
        · intro j hj1 hj2
          rcases Nat.lt_or_ge j c with hjc | hjc
          · exact le_of_lt (lt_of_lt_of_le hlt (h4 j hj1 hjc))
          · have : j = c := by omega
            subst this; exact le_refl _
        · intro j hj1 hj2
          exact lt_of_lt_of_le hlt (h4 j hj1 hj2)
      · rw [if_neg hlt]
        push_neg at hlt
        refine ⟨h1, by omega, h3, ?_, h5⟩
        intro j hj1 hj2
        rcases Nat.lt_or_ge j c with hjc | hjc
        · exact h4 j hj1 hjc
        · have : j = c := by omega
          subst this; exact hlt
    have := minScanLoop_inv m row cs k (c + 1) _ hstep
    simpa [Nat.add_assoc, Nat.add_comm 1 k] using this

/-- Full specification of `Matrix::min_in_row_range` on a valid range: it
returns the leftmost minimum of row `row` over `[column_start, column_end)`. -/
theorem min_in_row_range_spec [LinearOrder T] [Inhabited T] (m : Matrix T)
    {row cs ce : Nat} (hrow : row < m.height) (hse : cs < ce) (hend : ce ≤ m.width) :
    ∃ i v, m.min_in_row_range row cs ce = some (i, v) ∧
      cs ≤ i ∧ i < ce ∧ v = m.idx row i ∧
      (∀ c, cs ≤ c → c < ce → v ≤ m.idx row c) ∧
      (∀ c, cs ≤ c → c < i → v < m.idx row c) := by
  have hguard : ¬(row ≥ m.height ∨ cs ≥ ce ∨ ce > m.width) := by omega
  have hinv0 : ScanInv m row cs (cs + 1) (cs, m.idx row cs) :=
    ⟨le_refl _, by omega, rfl, by intro j hj1 hj2; have : j = cs := by omega
                                  subst this; exact le_refl _,
     by intro j hj1 hj2; omega⟩
  have hfin := minScanLoop_inv m row cs (ce - (cs + 1)) (cs + 1) _ hinv0
  obtain ⟨h1, h2, h3, h4, h5⟩ := hfin
  have hpos : cs + 1 + (ce - (cs + 1)) = ce := by omega
  rw [hpos] at h2 h4
  refine ⟨_, _, ?_, h1, h2, h3, h4, h5⟩
  rw [Matrix.min_in_row_range, if_neg hguard]

/-- Concrete matrix used to witness the tie-break behaviour: row 2 has its
minimum value 2 at the tied columns 0 and 2. -/
def tieMat : Matrix Int := ⟨3, 3, [[5, 1, 5], [5, 1, 5], [2, 3, 2]]⟩

/-- C4: for every matrix, in-bounds row and valid column range,
`min_in_row_range(row, start, end)` returns the pair `(column, value)` of the
minimum element scanning left to right, and on ties the smallest column
index: every strictly earlier in-range column holds a strictly larger
value. -/
theorem min_in_row_range_correct {T : Type} [LinearOrder T] [Inhabited T] (m : Matrix T)
    (row column_start column_end : Nat) (hrow : row < m.height)
    (hse : column_start < column_end) (hend : column_end ≤ m.width) :
    ∃ i v, m.min_in_row_range row column_start column_end = some (i, v) ∧
      column_start ≤ i ∧ i < column_end ∧ v = m.idx row i ∧
      (∀ c, column_start ≤ c → c < column_end → v ≤ m.idx row c) ∧
      (∀ c, column_start ≤ c → c < i → v < m.idx row c) :=
  min_in_row_range_spec m hrow hse hend

/-- Witness for C4 at the concrete tied matrix `tieMat`: the hypotheses hold
at `(row, start, end) = (2, 0, 3)`, the theorem applies, and the returned
column is the smallest tied index `0`. -/
theorem min_in_row_range_correct_witness :
    (2 < tieMat.height ∧ 0 < 3 ∧ 3 ≤ tieMat.width ∧
      tieMat.min_in_row_range 2 0 3 = some (0, 2)) ∧
    (∃ i v, tieMat.min_in_row_range 2 0 3 = some (i, v) ∧
      0 ≤ i ∧ i < 3 ∧ v = tieMat.idx 2 i ∧
      (∀ c, 0 ≤ c → c < 3 → v ≤ tieMat.idx 2 c) ∧
      (∀ c, 0 ≤ c → c < i → v < tieMat.idx 2 c)) :=
  ⟨by decide, min_in_row_range_correct tieMat 2 0 3 (by decide) (by decide) (by decide)⟩

/-! ### Cost dynamic program lemmas -/

theorem costRowFun_length (e : Matrix Int) (w r : Nat) : (costRowFun e w r).length = w := by
  cases r <;> simp [costRowFun]

theorem costRowFun_zero_getD (e : Matrix Int) (w : Nat) {c : Nat} (hc : c < w) :
    (costRowFun e w 0).getD c 0 = e.idx 0 c := by
  rw [costRowFun, getD_map_range _ _ hc]

theorem costRowFun_succ_getD (e : Matrix Int) (w : Nat) (r : Nat) {c : Nat} (hc : c < w) :
    (costRowFun e w (r + 1)).getD c 0 =
      e.idx (r + 1) c + minWindow (costRowFun e w r) c w := by
  rw [costRowFun, getD_map_range _ _ hc]

/-- The windowed minimum is at most the previous cost at any column within
one of `col` (and in bounds). -/
theorem minWindow_le (prev : List Int) (col w : Nat) {c' : Nat}
    (h1 : c' < w) (h2 : c' ≤ col + 1) (h3 : col ≤ c' + 1) :
    minWindow prev col w ≤ prev.getD c' 0 := by
  have hcase : c' = col ∨ (0 < col ∧ c' = col - 1) ∨ (c' = col + 1 ∧ col < w - 1) := by
    omega
  unfold minWindow
  rcases hcase with h | ⟨hpos, h⟩ | ⟨h, hlt⟩ <;> subst h <;> split_ifs <;>
    simp_all [min_le_iff, le_refl]

/-- The windowed minimum is one of its (in-bounds) candidates. -/
theorem minWindow_cases (prev : List Int) (col w : Nat) :
    minWindow prev col w = prev.getD col 0 ∨
    (0 < col ∧ minWindow prev col w = prev.getD (col - 1) 0) ∨
    (col + 1 < w ∧ minWindow prev col w = prev.getD (col + 1) 0) := by
  unfold minWindow
  dsimp only
  split_ifs with hcw hc0 hc0
  · rcases min_cases (min (prev.getD col 0) (prev.getD (col - 1) 0)) (prev.getD (col + 1) 0) with
      ⟨h, -⟩ | ⟨h, -⟩
    · rw [h]
      rcases min_cases (prev.getD col 0) (prev.getD (col - 1) 0) with ⟨h2, -⟩ | ⟨h2, -⟩
      · exact Or.inl h2
      · exact Or.inr (Or.inl ⟨hc0, h2⟩)
    · exact Or.inr (Or.inr ⟨by omega, h⟩)
  · rcases min_cases (prev.getD col 0) (prev.getD (col + 1) 0) with ⟨h, -⟩ | ⟨h, -⟩
    · exact Or.inl h
    · exact Or.inr (Or.inr ⟨by omega, h⟩)
  · rcases min_cases (prev.getD col 0) (prev.getD (col - 1) 0) with ⟨h2, -⟩ | ⟨h2, -⟩
    · exact Or.inl h2
    · exact Or.inr (Or.inl ⟨hc0, h2⟩)
  · exact Or.inl rfl

/-- Lower bound of the dynamic program: the cost of cell `(r, p r)` is at
most the energy collected by any connected partial path `p` from the top row
down to row `r`. -/
theorem cost_le_pathSum (e : Matrix Int) (w : Nat) :
    ∀ (r : Nat) (p : Nat → Nat), (∀ i, i ≤ r → p i < w) →
      (∀ i, i < r → p (i + 1) ≤ p i + 1 ∧ p i ≤ p (i + 1) + 1) →
      (costRowFun e w r).getD (p r) 0 ≤ ∑ i ∈ Finset.range (r + 1), e.idx i (p i)
  | 0, p, hb, _ => by
    rw [costRowFun_zero_getD e w (hb 0 (le_refl 0)), Finset.sum_range_one]
  | r + 1, p, hb, hadj => by
    rw [costRowFun_succ_getD e w r (hb (r + 1) (le_refl _)), Finset.sum_range_succ]
    have hwin : minWindow (costRowFun e w r) (p (r + 1)) w ≤ (costRowFun e w r).getD (p r) 0 :=
      minWindow_le _ _ _ (hb r (by omega)) (hadj r (by omega)).2 (hadj r (by omega)).1
    have hIH := cost_le_pathSum e w r p (fun i hi => hb i (by omega))
      (fun i hi => hadj i (by omega))
    linarith

theorem getD_append_lt {α : Type} (d : α) (l : List α) (x : α) {i : Nat} (h : i < l.length) :
    (l ++ [x]).getD i d = l.getD i d := by
  simp [List.getD, List.getElem?_append_left h]

theorem getD_append_len {α : Type} (d : α) (l : List α) (x : α) :
    (l ++ [x]).getD l.length d = x := by
  simp [List.getD]

/-- The cost matrix built by `vertical_cost` over energy `e`, width `w` and
height `h`. -/
def costMatrix (e : Matrix Int) (w h : Nat) : Matrix Int :=
  ⟨w, h, (List.range h).map (costRowFun e w)⟩

theorem costMatrix_idx (e : Matrix Int) (w h : Nat) {r : Nat} (hr : r < h) (c : Nat) :
    (costMatrix e w h).idx r c = (costRowFun e w r).getD c 0 := by
  unfold costMatrix Matrix.idx
  rw [getD_map_range _ _ hr]
  rfl

/-- Specification of the upward backtrace: starting from column `current` of
row `n` (rows `0 .. n-1` still to do), it succeeds and produces, in row
order, in-bounds columns forming a connected path whose collected energy
explains the cost of cell `(n, current)`. -/
theorem backtrace_spec (e : Matrix Int) (w h : Nat) :
    ∀ (n current : Nat), current < w → n + 1 ≤ h →
      ∃ l, backtraceRows (costMatrix e w h) w current n = some l ∧ l.length = n ∧
        (∀ i, i < n → l.getD i 0 < w) ∧
        (∀ i, i + 1 < n → l.getD (i + 1) 0 ≤ l.getD i 0 + 1 ∧ l.getD i 0 ≤ l.getD (i + 1) 0 + 1) ∧
        (1 ≤ n → current ≤ l.getD (n - 1) 0 + 1 ∧ l.getD (n - 1) 0 ≤ current + 1) ∧
        (costRowFun e w n).getD current 0 =
          e.idx n current + ∑ i ∈ Finset.range n, e.idx i (l.getD i 0)
  | 0, current, hcur, hn => by
    refine ⟨[], rfl, rfl, by omega, by omega, by omega, ?_⟩
    rw [costRowFun_zero_getD e w hcur, Finset.sum_range_zero, add_zero]
  | n + 1, current, hcur, hn => by
    have hrow : n < (costMatrix e w h).height := by
      show n < h; omega
    have hse : current - 1 < min (current + 2) w := by omega
    have hend : min (current + 2) w ≤ (costMatrix e w h).width := by
      show _ ≤ w; omega
    obtain ⟨cstar, v, hsome, hge, hlt, hval, hmin, -⟩ :=
      min_in_row_range_spec (costMatrix e w h) hrow hse hend
    have hcw : cstar < w := by omega
    obtain ⟨l', hbt, hlen, hbound, hadj, hlast, hcost⟩ :=
      backtrace_spec e w h n cstar hcw (by omega)
    -- the value of the backtrace minimum is exactly the DP window minimum
    have hvrow : v = (costRowFun e w n).getD cstar 0 := by
      rw [hval, costMatrix_idx e w h (by omega)]
    have hwin : minWindow (costRowFun e w n) current w = v := by
      apply le_antisymm
      · rw [hvrow]
        exact minWindow_le _ _ _ hcw (by omega) (by omega)
      · rcases minWindow_cases (costRowFun e w n) current w with hc | ⟨hpos, hc⟩ | ⟨hlt2, hc⟩
        · rw [hc, ← costMatrix_idx e w h (show n < h by omega)]
          exact hmin current (by omega) (by omega)
        · rw [hc, ← costMatrix_idx e w h (show n < h by omega)]
          exact hmin (current - 1) (by omega) (by omega)
        · rw [hc, ← costMatrix_idx e w h (show n < h by omega)]
          exact hmin (current + 1) (by omega) (by omega)
    refine ⟨l' ++ [cstar], ?_, by simp [hlen], ?_, ?_, ?_, ?_⟩
    · rw [backtraceRows, hsome]
      simp [hbt]
    · intro i hi
      rcases Nat.lt_or_ge i n with hin | hin
      · rw [getD_append_lt _ _ _ (by omega)]
        exact hbound i hin
      · have : i = n := by omega
        subst this
        rw [← hlen, getD_append_len]
        exact hcw
    · intro i hi
      rcases Nat.lt_or_ge (i + 1) n with hin | hin
      · rw [getD_append_lt _ _ _ (by omega), getD_append_lt _ _ _ (by omega)]
        exact hadj i hin
      · have hieq : i + 1 = n := by omega
        have h1 : i < l'.length := by omega
        rw [getD_append_lt _ _ _ h1]
        have : i + 1 = l'.length := by omega
        rw [this, getD_append_len]
        have := hlast (by omega)
        have hieq2 : n - 1 = i := by omega
        rw [hieq2] at this
        omega
    · intro _
      have : n + 1 - 1 = l'.length := by omega
      rw [this, getD_append_len]
      omega
    · rw [costRowFun_succ_getD e w n hcur, hwin, hvrow, hcost, Finset.sum_range_succ]
      have hsum : ∑ i ∈ Finset.range n, e.idx i (l'.getD i 0) =
          ∑ i ∈ Finset.range n, e.idx i ((l' ++ [cstar]).getD i 0) := by
        refine Finset.sum_congr rfl fun i hi => ?_
        rw [getD_append_lt _ _ _ (by simp at hi; omega)]
      have hlast2 : (l' ++ [cstar]).getD n 0 = cstar := by
        rw [← hlen, getD_append_len]
      rw [hlast2, hsum]
      ring

/-! ### Energy lemmas -/

/-- The interior grid built by `energy` before the border pass. -/
def Image.energyBase (img : Image) : Matrix Int :=
  Matrix.ofFn img.width img.height fun r c =>
    if 1 ≤ r ∧ r < img.height - 1 ∧ 1 ≤ c ∧ c < img.width - 1 then
      img.energyVal r c
    else 0

theorem Image.energy_eq (img : Image) (hw : 1 ≤ img.width) (hh : 1 ≤ img.height) :
    img.energy = some (img.energyBase.fill_border img.borderFill) := by
  unfold Image.energy
  rw [if_neg (by omega)]
  rfl

theorem Matrix.fill_border_width (m : Matrix T) (v : T) : (m.fill_border v).width = m.width := rfl

theorem Matrix.fill_border_height (m : Matrix T) (v : T) : (m.fill_border v).height = m.height := rfl

theorem Matrix.fill_border_idx [Inhabited T] (m : Matrix T) (v : T) {r c : Nat}
    (hr : r < m.height) (hc : c < m.width) :
    (m.fill_border v).idx r c =
      if r = 0 ∨ r = m.height - 1 ∨ c = 0 ∨ c = m.width - 1 then v
      else (m.datum.getD r []).getD c v := by
  unfold Matrix.fill_border Matrix.idx
  rw [getD_map_range _ _ hr, getD_map_range _ _ hc]

/-- Cell values of the energy matrix, for nonzero dimensions: the uniform
border value on the border, the dual-gradient value inside. -/
theorem Image.energy_idx (img : Image) (hw : 1 ≤ img.width) (hh : 1 ≤ img.height)
    {e : Matrix Int} (he : img.energy = some e) {r c : Nat}
    (hr : r < img.height) (hc : c < img.width) :
    e.idx r c =
      if r = 0 ∨ r = img.height - 1 ∨ c = 0 ∨ c = img.width - 1 then img.borderFill
      else img.energyVal r c := by
  rw [img.energy_eq hw hh] at he
  obtain rfl : e = img.energyBase.fill_border img.borderFill := by
    injection he.symm
  have hbw : img.energyBase.width = img.width := rfl
  have hbh : img.energyBase.height = img.height := rfl
  rw [Matrix.fill_border_idx _ _ (by rw [hbh]; exact hr) (by rw [hbw]; exact hc), hbw, hbh]
  by_cases hb : r = 0 ∨ r = img.height - 1 ∨ c = 0 ∨ c = img.width - 1
  · rw [if_pos hb, if_pos hb]
  · rw [if_neg hb, if_neg hb]
    unfold Image.energyBase Matrix.ofFn
    rw [getD_map_range _ _ hr, getD_map_range _ _ hc]
    dsimp only
    rw [if_pos (by omega)]

theorem Image.energy_width (img : Image) (hw : 1 ≤ img.width) (hh : 1 ≤ img.height)
    {e : Matrix Int} (he : img.energy = some e) : e.width = img.width := by
  rw [img.energy_eq hw hh] at he
  obtain rfl : e = img.energyBase.fill_border img.borderFill := by injection he.symm
  rfl

theorem Image.energy_height (img : Image) (hw : 1 ≤ img.width) (hh : 1 ≤ img.height)
    {e : Matrix Int} (he : img.energy = some e) : e.height = img.height := by
  rw [img.energy_eq hw hh] at he
  obtain rfl : e = img.energyBase.fill_border img.borderFill := by injection he.symm
  rfl

/-- The `max_energy` update step of the `energy` loops. -/
theorem foldl_max_init_le :
    ∀ (l : List Int) (init : Int), init ≤ l.foldl (fun m v => if v > m then v else m) init
  | [], init => le_refl _
  | x :: l, init => by
    refine le_trans ?_ (foldl_max_init_le l (if x > init then x else init))
    split <;> omega

theorem foldl_max_ge_mem :
    ∀ (l : List Int) (init v : Int), v ∈ l →
      v ≤ l.foldl (fun m v => if v > m then v else m) init
  | [], _, _, hv => by simp at hv
  | x :: l, init, v, hv => by
    rcases List.mem_cons.mp hv with rfl | hv
    · refine le_trans ?_ (foldl_max_init_le l (if v > init then v else init))
      split <;> omega
    · exact foldl_max_ge_mem l _ v hv

theorem foldl_max_mem_or_init :
    ∀ (l : List Int) (init : Int),
      l.foldl (fun m v => if v > m then v else m) init = init ∨
      l.foldl (fun m v => if v > m then v else m) init ∈ l
  | [], init => Or.inl rfl
  | x :: l, init => by
    rw [List.foldl_cons]
    rcases foldl_max_mem_or_init l (if x > init then x else init) with h | h
    · rw [h]
      by_cases hx : x > init
      · rw [if_pos hx]
        exact Or.inr (List.mem_cons_self _ _)
      · rw [if_neg hx]
        exact Or.inl rfl
    · exact Or.inr (List.mem_cons_of_mem _ h)

theorem Image.mem_interiorCells (img : Image) {r c : Nat} :
    (r, c) ∈ img.interiorCells ↔
      1 ≤ r ∧ r < img.height - 1 ∧ 1 ≤ c ∧ c < img.width - 1 := by
  unfold Image.interiorCells
  simp only [List.mem_flatMap, List.mem_map, List.mem_range'_1, Prod.mk.injEq]
  constructor
  · rintro ⟨a, ⟨ha1, ha2⟩, b, ⟨hb1, hb2⟩, rfl, rfl⟩
    omega
  · rintro ⟨h1, h2, h3, h4⟩
    exact ⟨r, ⟨h1, by omega⟩, c, ⟨h3, by omega⟩, rfl, rfl⟩

theorem Image.maxInteriorEnergy_nonneg (img : Image) : 0 ≤ img.maxInteriorEnergy :=
  foldl_max_init_le _ 0

theorem Image.borderFill_pos (img : Image) : 1 ≤ img.borderFill := by
  unfold Image.borderFill
  split
  · exact le_refl _
  · have := img.maxInteriorEnergy_nonneg
    omega

theorem Image.energyVal_le_borderFill (img : Image) {r c : Nat}
    (h : 1 ≤ r ∧ r < img.height - 1 ∧ 1 ≤ c ∧ c < img.width - 1) :
    img.energyVal r c ≤ img.borderFill := by
  have hmem : img.energyVal r c ∈ img.interiorCells.map fun rc => img.energyVal rc.1 rc.2 :=
    List.mem_map.mpr ⟨(r, c), img.mem_interiorCells.mpr h, rfl⟩
  have hle : img.energyVal r c ≤ img.maxInteriorEnergy := foldl_max_ge_mem _ 0 _ hmem
  unfold Image.borderFill
  split
  · omega
  · exact hle

theorem Image.borderFill_one_or_achieved (img : Image) :
    img.borderFill = 1 ∨
    ∃ r c, (1 ≤ r ∧ r < img.height - 1 ∧ 1 ≤ c ∧ c < img.width - 1) ∧
      img.energyVal r c = img.borderFill := by
  unfold Image.borderFill
  split
  · exact Or.inl rfl
  · rcases foldl_max_mem_or_init (img.interiorCells.map fun rc => img.energyVal rc.1 rc.2) 0 with
      h | h
    · exact absurd h (by assumption)
    · obtain ⟨⟨r, c⟩, hmem, hval⟩ := List.mem_map.mp h
      exact Or.inr ⟨r, c, img.mem_interiorCells.mp hmem, hval⟩

/-! ### Full specification of `minimal_vertical_seam` -/

theorem vertical_cost_eq (img : Image) {e : Matrix Int} (he : img.energy = some e) :
    img.vertical_cost = some (costMatrix e img.width img.height) := by
  unfold Image.vertical_cost
  rw [he]
  rfl

/-- Shared specification of `minimal_vertical_seam` for nonzero dimensions:
it succeeds, returns one in-bounds column per row with adjacent entries
within one of each other, and its collected energy is minimal over all
connected one-pixel-per-row paths. -/
theorem seam_spec (img : Image) (hw : 1 ≤ img.width) (hh : 1 ≤ img.height) :
    ∃ e s, img.energy = some e ∧ img.minimal_vertical_seam = some s ∧
      s.length = img.height ∧
      (∀ i, i < img.height → s.getD i 0 < img.width) ∧
      (∀ i, i + 1 < img.height →
        s.getD (i + 1) 0 ≤ s.getD i 0 + 1 ∧ s.getD i 0 ≤ s.getD (i + 1) 0 + 1) ∧
      (∀ p : Nat → Nat, (∀ r, r < img.height → p r < img.width) →
        (∀ r, r + 1 < img.height → p (r + 1) ≤ p r + 1 ∧ p r ≤ p (r + 1) + 1) →
        ∑ i ∈ Finset.range img.height, e.idx i (s.getD i 0) ≤
          ∑ i ∈ Finset.range img.height, e.idx i (p i)) := by
  obtain ⟨e, he⟩ : ∃ e, img.energy = some e :=
    ⟨_, img.energy_eq hw hh⟩
  set w := img.width with hwdef
  set h := img.height with hhdef
  have hcost := vertical_cost_eq img he
  have hrow : h - 1 < (costMatrix e w h).height := by
    show h - 1 < h; omega
  have hend : w ≤ (costMatrix e w h).width := le_refl _
  obtain ⟨c0, v0, hsome, -, hc0w, hval0, hmin0, -⟩ :=
    min_in_row_range_spec (costMatrix e w h) hrow (show 0 < w from hw) hend
  obtain ⟨l, hbt, hlen, hbound, hadj, hlast, hcosteq⟩ :=
    backtrace_spec e w h (h - 1) c0 hc0w (by omega)
  have hseam : img.minimal_vertical_seam = some (l ++ [c0]) := by
    unfold Image.minimal_vertical_seam
    rw [hcost]
    simp only [Option.bind_eq_bind, Option.some_bind]
    rw [hsome]
    simp only [Option.some_bind]
    rw [hbt]
    rfl
  have hslen : (l ++ [c0]).length = h := by
    simp [hlen]; omega
  have hgetlast : (l ++ [c0]).getD (h - 1) 0 = c0 := by
    rw [← hlen, getD_append_len]
  have hgetlt : ∀ i, i < h - 1 → (l ++ [c0]).getD i 0 = l.getD i 0 := fun i hi => by
    rw [getD_append_lt _ _ _ (by omega)]
  -- collected energy of the seam equals the bottom-row minimum value
  have hv0 : v0 = (costRowFun e w (h - 1)).getD c0 0 := by
    rw [hval0, costMatrix_idx e w h (by omega)]
  have hsum : ∑ i ∈ Finset.range h, e.idx i ((l ++ [c0]).getD i 0) = v0 := by
    have hh1 : h = (h - 1) + 1 := by omega
    rw [hh1, Finset.sum_range_succ]
    have : ∀ i ∈ Finset.range (h - 1),
        e.idx i ((l ++ [c0]).getD i 0) = e.idx i (l.getD i 0) := fun i hi => by
      rw [hgetlt i (by simp at hi; omega)]
    rw [Finset.sum_congr rfl this, hgetlast, hv0, hcosteq]
    ring
  refine ⟨e, l ++ [c0], he, hseam, hslen, ?_, ?_, ?_⟩
  · intro i hi
    rcases Nat.lt_or_ge i (h - 1) with hih | hih
    · rw [hgetlt i hih]
      exact hbound i (by omega)
    · have : i = h - 1 := by omega
      subst this
      rw [hgetlast]
      exact hc0w
  · intro i hi
    rcases Nat.lt_or_ge (i + 1) (h - 1) with hih | hih
    · rw [hgetlt _ hih, hgetlt _ (by omega)]
      exact hadj i (by omega)
    · have hie : i + 1 = h - 1 := by omega
      rw [hie, hgetlast, hgetlt i (by omega)]
      have := hlast (by omega)
      have hn1 : h - 1 - 1 = i := by omega
      rw [hn1] at this
      omega
  · intro p hpb hpadj
    rw [hsum]
    have hlow := cost_le_pathSum e w (h - 1) p
      (fun i hi => hpb i (by omega)) (fun i hi => hpadj i (by omega))
    have hmin : v0 ≤ (costRowFun e w (h - 1)).getD (p (h - 1)) 0 := by
      rw [← costMatrix_idx e w h (by omega)]
      exact hmin0 (p (h - 1)) (by omega) (hpb (h - 1) (by omega))
    have hh1 : (h - 1) + 1 = h := by omega
    rw [hh1] at hlow
    exact le_trans hmin hlow

/-- C2: for every image with nonzero dimensions, `minimal_vertical_seam`
returns exactly `height` column indices, each strictly below the width,
adjacent entries differing by at most one, and the collected energy along
the returned path is minimal over all connected top-to-bottom paths with
one pixel per row. -/
theorem minimal_vertical_seam_correct (img : Image) (hw : 1 ≤ img.width)
    (hh : 1 ≤ img.height) :
    ∃ e s, img.energy = some e ∧ img.minimal_vertical_seam = some s ∧
      s.length = img.height ∧
      (∀ i, i < img.height → s.getD i 0 < img.width) ∧
      (∀ i, i + 1 < img.height →
        s.getD (i + 1) 0 ≤ s.getD i 0 + 1 ∧ s.getD i 0 ≤ s.getD (i + 1) 0 + 1) ∧
      (∀ p : Nat → Nat, (∀ r, r < img.height → p r < img.width) →
        (∀ r, r + 1 < img.height → p (r + 1) ≤ p r + 1 ∧ p r ≤ p (r + 1) + 1) →
        ∑ i ∈ Finset.range img.height, e.idx i (s.getD i 0) ≤
          ∑ i ∈ Finset.range img.height, e.idx i (p i)) :=
  seam_spec img hw hh

/-! ### Seam removal -/

theorem getD_eq_getElem' {α : Type} (d : α) (l : List α) {i : Nat} (h : i < l.length) :
    l.getD i d = l[i] := by
  simp [List.getD, List.getElem?_eq_getElem h]

theorem forall_mem_of_getD {l : List Nat} {bound : Nat}
    (h : ∀ i, i < l.length → l.getD i 0 < bound) : ∀ x ∈ l, x < bound := by
  intro x hx
  obtain ⟨i, hi, rfl⟩ := List.mem_iff_getElem.mp hx
  have := h i hi
  rwa [getD_eq_getElem' _ _ hi] at this

theorem Matrix.WF_of_getD (m : Matrix T) (hlen : m.datum.length = m.height)
    (hrows : ∀ i, i < m.height → (m.datum.getD i []).length = m.width) : m.WF := by
  refine ⟨hlen, fun row hrow => ?_⟩
  obtain ⟨i, hi, rfl⟩ := List.mem_iff_getElem.mp hrow
  have := hrows i (by omega)
  rwa [getD_eq_getElem' _ _ hi] at this

/-- One row of the seam-removal shift followed by the trim: shifting left
from index `s` and keeping the first `w - 1` entries deletes exactly the
element at index `s`. -/
theorem shift_take_eraseIdx {α : Type} [Inhabited α] (row : List α) (w s : Nat)
    (hlen : row.length = w) (hs : s < w) :
    (shiftLoop 1 (w - 1 - s) row s).take (w - 1) = row.eraseIdx s := by
  have hshiftlen : (shiftLoop 1 (w - 1 - s) row s).length = w := by
    rw [shiftLoop_length, hlen]
  refine eq_of_length_getD default _ _ ?_ fun j hj => ?_
  · rw [List.length_take, hshiftlen, List.length_eraseIdx, hlen, if_pos hs]
    omega
  · rw [List.length_take, hshiftlen] at hj
    have hjw : j < w - 1 := by omega
    rw [getD_take _ _ _ _ hjw, shiftLoop_getD 1 (le_refl 1)]
    rcases Nat.lt_or_ge j s with hjs | hjs
    · rw [if_neg (by omega), getD_eraseIdx_lt _ _ _ _ hjs]
    · rw [if_pos (by omega), getD_eraseIdx_ge _ _ _ _ hjs]

/-- Shared specification of `remove_vertical_seam` on a well-formed image of
nonzero dimensions: it succeeds, the width drops by one, the height is kept,
the result is well formed, and every row of every channel is the original
row with exactly the entry at the seam column deleted. -/
theorem remove_spec_aux (img : Image) (hwf : img.WF) (hw : 1 ≤ img.width)
    (hh : 1 ≤ img.height) :
    ∃ s img', img.minimal_vertical_seam = some s ∧
      img.remove_vertical_seam = some img' ∧
      img'.width = img.width - 1 ∧ img'.height = img.height ∧ img'.WF ∧
      (∀ r, r < img.height →
        img'.red_channel.datum.getD r [] =
          (img.red_channel.datum.getD r []).eraseIdx (s.getD r 0) ∧
        img'.green_channel.datum.getD r [] =
          (img.green_channel.datum.getD r []).eraseIdx (s.getD r 0) ∧
        img'.blue_channel.datum.getD r [] =
          (img.blue_channel.datum.getD r []).eraseIdx (s.getD r 0)) := by
  obtain ⟨e, s, -, hseam, hslen, hsb, -, -⟩ := seam_spec img hw hh
  obtain ⟨hrwf, hgwf, hbwf, hrw, hrh, hgw, hgh, hbw, hbh⟩ := hwf
  have hmem : ∀ x ∈ s, x < img.width := forall_mem_of_getD (fun i hi => hsb i (by omega))
  set w := img.width with hwdef
  set h := img.height with hhdef
  -- the per-channel action
  have channel_spec : ∀ m : Matrix Nat, m.WF → m.width = w → m.height = h →
      ((⟨m.width, m.height, List.zipWith (fun row sc => shiftLoop 1 (w - 1 - sc) row sc)
          m.datum s⟩ : Matrix Nat).trim_width (w - 1)).WF ∧
      (∀ r, r < h →
        ((⟨m.width, m.height, List.zipWith (fun row sc => shiftLoop 1 (w - 1 - sc) row sc)
            m.datum s⟩ : Matrix Nat).trim_width (w - 1)).datum.getD r [] =
          (m.datum.getD r []).eraseIdx (s.getD r 0)) := by
    intro m hmwf hmw hmh
    have hdl : m.datum.length = h := by rw [hmwf.1, hmh]
    have hzl : (List.zipWith (fun row sc => shiftLoop 1 (w - 1 - sc) row sc) m.datum s).length
        = h := by
      rw [length_zipWith, hdl, hslen]
      omega
    have hrowlen : ∀ i, i < h → (m.datum.getD i []).length = w := fun i hi => by
      rw [Matrix.WF_row_length hmwf (by omega), hmw]
    have hzrow : ∀ r, r < h →
        (List.zipWith (fun row sc => shiftLoop 1 (w - 1 - sc) row sc) m.datum s).getD r [] =
          shiftLoop 1 (w - 1 - s.getD r 0) (m.datum.getD r []) (s.getD r 0) := fun r hr => by
      rw [getD_zipWith _ [] 0 [] m.datum s r (by omega) (by omega)]
    constructor
    · apply Matrix.WF_of_getD
      · show _ = m.height
        simp only [Matrix.trim_width]
        rw [List.length_map, hzl, hmh]
      · intro i hi
        have hih : i < h := by
          simp only [Matrix.trim_width] at hi
          rw [hmh] at hi
          exact hi
        simp only [Matrix.trim_width]
        rw [getD_map _ [] [] _ i (by rw [hzl]; exact hih)]
        rw [hzrow i hih]
        rw [List.length_take, shiftLoop_length, hrowlen i hih]
        omega
    · intro r hr
      simp only [Matrix.trim_width]
      rw [getD_map _ [] [] _ r (by rw [hzl]; exact hr), hzrow r hr]
      exact shift_take_eraseIdx _ w _ (hrowlen r hr) (hsb r hr)
  refine ⟨s,
    { img with
      width := w - 1,
      red_channel := (⟨img.red_channel.width, img.red_channel.height,
        List.zipWith (fun row sc => shiftLoop 1 (w - 1 - sc) row sc)
          img.red_channel.datum s⟩ : Matrix Nat).trim_width (w - 1),
      green_channel := (⟨img.green_channel.width, img.green_channel.height,
        List.zipWith (fun row sc => shiftLoop 1 (w - 1 - sc) row sc)
          img.green_channel.datum s⟩ : Matrix Nat).trim_width (w - 1),
      blue_channel := (⟨img.blue_channel.width, img.blue_channel.height,
        List.zipWith (fun row sc => shiftLoop 1 (w - 1 - sc) row sc)
          img.blue_channel.datum s⟩ : Matrix Nat).trim_width (w - 1) },
    hseam, ?_, rfl, rfl, ?_, ?_⟩
  · unfold Image.remove_vertical_seam
    rw [hseam]
    simp only [Option.bind_eq_bind, Option.some_bind]
    rw [if_pos ⟨hslen, hmem⟩]
  · exact ⟨(channel_spec _ hrwf hrw hrh).1, (channel_spec _ hgwf hgw hgh).1,
      (channel_spec _ hbwf hbw hbh).1, rfl, hrh, rfl, hgh, rfl, hbh⟩
  · intro r hr
    exact ⟨(channel_spec _ hrwf hrw hrh).2 r hr, (channel_spec _ hgwf hgw hgh).2 r hr,
      (channel_spec _ hbwf hbw hbh).2 r hr⟩

/-! ### Concrete images for witnesses -/

/-- A well-formed uniform 3×3 image. -/
def img33 : Image :=
  { width := 3, height := 3, max_intensity := 255,
    red_channel := ⟨3, 3, [[7, 7, 7], [7, 7, 7], [7, 7, 7]]⟩,
    blue_channel := ⟨3, 3, [[7, 7, 7], [7, 7, 7], [7, 7, 7]]⟩,
    green_channel := ⟨3, 3, [[7, 7, 7], [7, 7, 7], [7, 7, 7]]⟩,
    format := .P3 }

/-- A well-formed 4×3 image with distinct channel values. -/
def img43 : Image :=
  { width := 4, height := 3, max_intensity := 255,
    red_channel := ⟨4, 3, [[1, 2, 3, 4], [5, 6, 7, 8], [9, 10, 11, 12]]⟩,
    blue_channel := ⟨4, 3, [[0, 0, 1, 0], [2, 0, 0, 3], [0, 4, 0, 0]]⟩,
    green_channel := ⟨4, 3, [[9, 8, 7, 6], [5, 4, 3, 2], [1, 0, 1, 2]]⟩,
    format := .P6 }

/-- A well-formed 2×2 image (both dimensions below 3). -/
def img22 : Image :=
  { width := 2, height := 2, max_intensity := 255,
    red_channel := ⟨2, 2, [[5, 6], [7, 8]]⟩,
    blue_channel := ⟨2, 2, [[1, 2], [3, 4]]⟩,
    green_channel := ⟨2, 2, [[9, 9], [9, 9]]⟩,
    format := .P3 }

/-- A well-formed image of width zero and height two. -/
def img02 : Image :=
  { width := 0, height := 2, max_intensity := 255,
    red_channel := ⟨0, 2, [[], []]⟩,
    blue_channel := ⟨0, 2, [[], []]⟩,
    green_channel := ⟨0, 2, [[], []]⟩,
    format := .P3 }

/-! ### Claim C1 -/

/-- C1: on a well-formed image with nonzero dimensions, one call to
`remove_vertical_seam` succeeds; the new width is the old width minus one,
the height is unchanged, and every row of every channel equals the original
row with exactly the element at the seam's column for that row removed,
order preserved (`List.eraseIdx`). -/
theorem remove_vertical_seam_correct (img : Image) (hwf : img.WF) (hw : 1 ≤ img.width)
    (hh : 1 ≤ img.height) :
    ∃ s img', img.minimal_vertical_seam = some s ∧
      img.remove_vertical_seam = some img' ∧
      img'.width = img.width - 1 ∧ img'.height = img.height ∧
      (∀ r, r < img.height →
        img'.red_channel.datum.getD r [] =
          (img.red_channel.datum.getD r []).eraseIdx (s.getD r 0) ∧
        img'.green_channel.datum.getD r [] =
          (img.green_channel.datum.getD r []).eraseIdx (s.getD r 0) ∧
        img'.blue_channel.datum.getD r [] =
          (img.blue_channel.datum.getD r []).eraseIdx (s.getD r 0)) := by
  obtain ⟨s, img', h1, h2, h3, h4, -, h6⟩ := remove_spec_aux img hwf hw hh
  exact ⟨s, img', h1, h2, h3, h4, h6⟩

/-- Witness for C1 at the concrete image `img43`. -/
theorem remove_vertical_seam_correct_witness :
    (img43.WF ∧ 1 ≤ img43.width ∧ 1 ≤ img43.height) ∧
    (∃ s img', img43.minimal_vertical_seam = some s ∧
      img43.remove_vertical_seam = some img' ∧
      img'.width = img43.width - 1 ∧ img'.height = img43.height ∧
      (∀ r, r < img43.height →
        img'.red_channel.datum.getD r [] =
          (img43.red_channel.datum.getD r []).eraseIdx (s.getD r 0) ∧
        img'.green_channel.datum.getD r [] =
          (img43.green_channel.datum.getD r []).eraseIdx (s.getD r 0) ∧
        img'.blue_channel.datum.getD r [] =
          (img43.blue_channel.datum.getD r []).eraseIdx (s.getD r 0))) :=
  ⟨⟨by decide, by decide, by decide⟩,
    remove_vertical_seam_correct img43 (by decide) (by decide) (by decide)⟩

/-- Witness for C2 at the concrete image `img33`. -/
theorem minimal_vertical_seam_correct_witness :
    (1 ≤ img33.width ∧ 1 ≤ img33.height) ∧
    (∃ e s, img33.energy = some e ∧ img33.minimal_vertical_seam = some s ∧
      s.length = img33.height ∧
      (∀ i, i < img33.height → s.getD i 0 < img33.width) ∧
      (∀ i, i + 1 < img33.height →
        s.getD (i + 1) 0 ≤ s.getD i 0 + 1 ∧ s.getD i 0 ≤ s.getD (i + 1) 0 + 1) ∧
      (∀ p : Nat → Nat, (∀ r, r < img33.height → p r < img33.width) →
        (∀ r, r + 1 < img33.height → p (r + 1) ≤ p r + 1 ∧ p r ≤ p (r + 1) + 1) →
        ∑ i ∈ Finset.range img33.height, e.idx i (s.getD i 0) ≤
          ∑ i ∈ Finset.range img33.height, e.idx i (p i))) :=
  ⟨⟨by decide, by decide⟩,
    minimal_vertical_seam_correct img33 (by decide) (by decide)⟩

/-! ### Claim C10 -/

/-- C10: calling `seam_carve_width` with a target strictly above the current
width returns normally and leaves the image completely unchanged. -/
theorem seam_carve_width_growth_noop (img : Image) (new_width : Nat)
    (h : img.width < new_width) :
    img.seam_carve_width new_width = some img := by
  unfold Image.seam_carve_width
  rw [if_neg (by omega)]
  have hz : img.width - new_width = 0 := by omega
  rw [hz]
  rfl

/-- Witness for C10: growing request on `img33` is an exact no-op. -/
theorem seam_carve_width_growth_noop_witness :
    img33.width < 5 ∧ img33.seam_carve_width 5 = some img33 :=
  ⟨by decide, seam_carve_width_growth_noop img33 5 (by decide)⟩

/-! ### Claim C3 -/

theorem squared_difference_self (p : PixelRGB) : p.squared_difference p = 0 := by
  simp [PixelRGB.squared_difference]

/-- On an image whose pixels all agree, every interior dual-gradient value
vanishes. -/
theorem uniform_energyVal_zero (img : Image)
    (huni : ∀ r c, r < img.height → c < img.width → img.get_pixel r c = img.get_pixel 0 0)
    {r c : Nat} (hint : 1 ≤ r ∧ r < img.height - 1 ∧ 1 ≤ c ∧ c < img.width - 1) :
    img.energyVal r c = 0 := by
  have hh : 1 ≤ img.height := by omega
  have hw : 1 ≤ img.width := by omega
  have hp0 : img.get_pixel 0 0 = some ⟨img.red_channel.idx 0 0, img.green_channel.idx 0 0,
      img.blue_channel.idx 0 0⟩ := by
    unfold Image.get_pixel
    rw [if_pos ⟨by omega, by omega⟩]
  have hpix : ∀ a b, a < img.height → b < img.width →
      img.pixelOr0 a b = ⟨img.red_channel.idx 0 0, img.green_channel.idx 0 0,
        img.blue_channel.idx 0 0⟩ := by
    intro a b ha hb
    unfold Image.pixelOr0
    rw [huni a b ha hb, hp0]
    rfl
  unfold Image.energyVal
  rw [hpix (r - 1) c (by omega) (by omega), hpix (r + 1) c (by omega) (by omega),
    hpix r (c + 1) (by omega) (by omega), hpix r (c - 1) (by omega) (by omega)]
  dsimp only
  simp [squared_difference_self]

theorem uniform_borderFill_one (img : Image)
    (huni : ∀ r c, r < img.height → c < img.width → img.get_pixel r c = img.get_pixel 0 0) :
    img.borderFill = 1 := by
  have hmax : img.maxInteriorEnergy = 0 := by
    unfold Image.maxInteriorEnergy
    rcases foldl_max_mem_or_init (img.interiorCells.map fun rc => img.energyVal rc.1 rc.2) 0 with
      h | h
    · exact h
    · obtain ⟨⟨r, c⟩, hmem, hval⟩ := List.mem_map.mp h
      rw [← hval]
      exact uniform_energyVal_zero img huni (img.mem_interiorCells.mp hmem)
  unfold Image.borderFill
  rw [if_pos hmax]

/-- C3: for nonzero dimensions, `energy` succeeds with a matrix of the
image's shape whose border cells all carry `borderFill` and whose interior
cells carry their dual-gradient value; `borderFill` is at least `1`,
dominates every interior value, and is either `1` or attained by some
interior cell; and on a uniform-color image the matrix is exactly `1` on the
border and exactly `0` everywhere inside. -/
theorem energy_border_and_uniform_correct (img : Image) (hw : 1 ≤ img.width)
    (hh : 1 ≤ img.height) :
    ∃ e, img.energy = some e ∧ e.width = img.width ∧ e.height = img.height ∧
      (∀ r c, r < img.height → c < img.width →
        (r = 0 ∨ r = img.height - 1 ∨ c = 0 ∨ c = img.width - 1) →
        e.idx r c = img.borderFill) ∧
      (∀ r c, 1 ≤ r → r < img.height - 1 → 1 ≤ c → c < img.width - 1 →
        e.idx r c = img.energyVal r c) ∧
      1 ≤ img.borderFill ∧
      (∀ r c, 1 ≤ r → r < img.height - 1 → 1 ≤ c → c < img.width - 1 →
        img.energyVal r c ≤ img.borderFill) ∧
      (img.borderFill = 1 ∨
        ∃ r c, (1 ≤ r ∧ r < img.height - 1 ∧ 1 ≤ c ∧ c < img.width - 1) ∧
          img.energyVal r c = img.borderFill) ∧
      ((∀ r c, r < img.height → c < img.width → img.get_pixel r c = img.get_pixel 0 0) →
        ∀ r c, r < img.height → c < img.width →
          e.idx r c =
            if r = 0 ∨ r = img.height - 1 ∨ c = 0 ∨ c = img.width - 1 then 1 else 0) := by
  refine ⟨_, img.energy_eq hw hh, rfl, rfl, ?_, ?_, img.borderFill_pos, ?_, ?_, ?_⟩
  · intro r c hr hc hb
    rw [img.energy_idx hw hh (img.energy_eq hw hh) hr hc, if_pos hb]
  · intro r c h1 h2 h3 h4
    rw [img.energy_idx hw hh (img.energy_eq hw hh) (by omega) (by omega), if_neg (by omega)]
  · intro r c h1 h2 h3 h4
    exact img.energyVal_le_borderFill ⟨h1, h2, h3, h4⟩
  · exact img.borderFill_one_or_achieved
  · intro huni r c hr hc
    rw [img.energy_idx hw hh (img.energy_eq hw hh) hr hc]
    by_cases hb : r = 0 ∨ r = img.height - 1 ∨ c = 0 ∨ c = img.width - 1
    · rw [if_pos hb, if_pos hb, uniform_borderFill_one img huni]
    · rw [if_neg hb, if_neg hb]
      exact uniform_energyVal_zero img huni (by omega)

/-- Witness for C3 at the uniform image `img33`. -/
theorem energy_border_and_uniform_correct_witness :
    (1 ≤ img33.width ∧ 1 ≤ img33.height) ∧
    (∃ e, img33.energy = some e ∧ e.width = img33.width ∧ e.height = img33.height ∧
      (∀ r c, r < img33.height → c < img33.width →
        (r = 0 ∨ r = img33.height - 1 ∨ c = 0 ∨ c = img33.width - 1) →
        e.idx r c = img33.borderFill) ∧
      (∀ r c, 1 ≤ r → r < img33.height - 1 → 1 ≤ c → c < img33.width - 1 →
        e.idx r c = img33.energyVal r c) ∧
      1 ≤ img33.borderFill ∧
      (∀ r c, 1 ≤ r → r < img33.height - 1 → 1 ≤ c → c < img33.width - 1 →
        img33.energyVal r c ≤ img33.borderFill) ∧
      (img33.borderFill = 1 ∨
        ∃ r c, (1 ≤ r ∧ r < img33.height - 1 ∧ 1 ≤ c ∧ c < img33.width - 1) ∧
          img33.energyVal r c = img33.borderFill) ∧
      ((∀ r c, r < img33.height → c < img33.width →
          img33.get_pixel r c = img33.get_pixel 0 0) →
        ∀ r c, r < img33.height → c < img33.width →
          e.idx r c =
            if r = 0 ∨ r = img33.height - 1 ∨ c = 0 ∨ c = img33.width - 1 then 1 else 0)) :=
  ⟨⟨by decide, by decide⟩, energy_border_and_uniform_correct img33 (by decide) (by decide)⟩

/-! ### Claim C6 -/

theorem interiorCells_eq_nil (img : Image) (hdeg : img.width < 3 ∨ img.height < 3) :
    img.interiorCells = [] := by
  unfold Image.interiorCells
  rcases hdeg with hlt | hlt
  · have hz : img.width - 2 = 0 := by omega
    rw [hz]
    simp
  · have hz : img.height - 2 = 0 := by omega
    rw [hz]
    simp

/-- Amended C6: for every image with **nonzero** dimensions, at least one of
which is below 3, `energy` returns normally; the interior pass is empty and
every cell of the result is the border fallback value `1`. -/
theorem energy_degenerate_border_fallback (img : Image) (hw : 1 ≤ img.width)
    (hh : 1 ≤ img.height) (hdeg : img.width < 3 ∨ img.height < 3) :
    ∃ e, img.energy = some e ∧ e.width = img.width ∧ e.height = img.height ∧
      ∀ r c, r < img.height → c < img.width → e.idx r c = 1 := by
  have hfill : img.borderFill = 1 := by
    unfold Image.borderFill Image.maxInteriorEnergy
    rw [interiorCells_eq_nil img hdeg]
    rfl
  refine ⟨_, img.energy_eq hw hh, rfl, rfl, ?_⟩
  intro r c hr hc
  rw [img.energy_idx hw hh (img.energy_eq hw hh) hr hc, if_pos (by omega), hfill]

/-- Counterexample to C6 as stated: on the width-zero image `img02`
(dimension 0 is "below 3"), the source `energy` panics — `fill_border`
indexes an empty backing vector — modelled by `none`: it does **not** return
normally. -/
theorem energy_zero_width_counterexample :
    img02.width = 0 ∧ img02.energy = none := by
  constructor
  · rfl
  · rfl

/-- Witness for the amended C6 at the 2×2 image `img22`. -/
theorem energy_degenerate_border_fallback_witness :
    (1 ≤ img22.width ∧ 1 ≤ img22.height ∧ (img22.width < 3 ∨ img22.height < 3)) ∧
    (∃ e, img22.energy = some e ∧ e.width = img22.width ∧ e.height = img22.height ∧
      ∀ r c, r < img22.height → c < img22.width → e.idx r c = 1) :=
  ⟨⟨by decide, by decide, by decide⟩,
    energy_degenerate_border_fallback img22 (by decide) (by decide) (by decide)⟩

/-! ### Claim C7 -/

/-- Rotating a channel left then right restores it (channel dimensions taken
from the image: the left rotation is built on a `w × h` image, the right
rotation on the resulting `h × w` one). -/
theorem rotateLeftC_rotateRightC {T : Type} [Inhabited T] (m : Matrix T) (hm : m.WF)
    (w h : Nat) (hmw : m.width = w) (hmh : m.height = h) :
    (m.rotateLeftC w h).rotateRightC h w = m := by
  have hstep : (m.rotateLeftC w h).rotateRightC h w = Matrix.ofFn w h m.idx := by
    unfold Matrix.rotateRightC
    unfold Matrix.ofFn
    simp only [Matrix.mk.injEq, true_and]
    refine eq_of_length_getD [] _ _ (by simp) fun r hr => ?_
    rw [length_map_range] at hr
    rw [getD_map_range _ _ hr, getD_map_range _ _ hr]
    refine eq_of_length_getD default _ _ (by simp) fun c hc => ?_
    rw [length_map_range] at hc
    rw [getD_map_range _ _ hc, getD_map_range _ _ hc]
    unfold Matrix.rotateLeftC
    rw [Matrix.ofFn_idx _ _ _ (by omega) (by omega)]
    have : w - 1 - (w - 1 - c) = c := by omega
    rw [this]
  rw [hstep, ← hmw, ← hmh, Matrix.ofFn_idx_eq_self hm]

/-- C7: `rotate_left` followed by `rotate_right` restores the original image
exactly — width, height and every pixel of every channel — for every
well-formed image, including zero width or height (where both rotations are
early-return no-ops). -/
theorem rotate_left_right_roundtrip (img : Image) (hwf : img.WF) :
    img.rotate_left.rotate_right = img := by
  obtain ⟨hrwf, hgwf, hbwf, hrw, hrh, hgw, hgh, hbw, hbh⟩ := hwf
  by_cases hz : img.width = 0 ∨ img.height = 0
  · unfold Image.rotate_left Image.rotate_right
    rw [if_pos hz, if_pos hz]
  · unfold Image.rotate_left
    rw [if_neg hz]
    unfold Image.rotate_right
    push_neg at hz
    rw [if_neg (by simpa using ⟨hz.2, hz.1⟩)]
    simp only
    obtain ⟨wid, hei, mi, rc, bc, gc, fmt⟩ := img
    simp only at hrw hrh hgw hgh hbw hbh hz ⊢
    simp only [Image.mk.injEq, and_true, true_and]
    exact ⟨rotateLeftC_rotateRightC rc hrwf wid hei hrw hrh,
      rotateLeftC_rotateRightC bc hbwf wid hei hbw hbh,
      rotateLeftC_rotateRightC gc hgwf wid hei hgw hgh⟩

/-- Witness for C7 at the concrete image `img43`. -/
theorem rotate_left_right_roundtrip_witness :
    img43.WF ∧ img43.rotate_left.rotate_right = img43 :=
  ⟨by decide, rotate_left_right_roundtrip img43 (by decide)⟩

/-! ### Claim C8 -/

/-- An `Image` value with mismatched channel shapes.  It typechecks because
`Image` is a bare public record — exactly what the spec says must not be
possible. -/
def badImage : Image :=
  { width := 1, height := 1, max_intensity := 255,
    red_channel := ⟨1, 1, [[0]]⟩,
    blue_channel := ⟨1, 1, [[0]]⟩,
    green_channel := ⟨2, 2, [[0, 0], [0, 0]]⟩,
    format := .P3 }

/-- Counterexample to C8 as stated: the source's `Image` is a bare public
record (all fields `pub`, no constructor taking three channel matrices), so
an instance with differently-shaped channels is constructible — the
shared-shape invariant is *not* enforced by a validated constructor. -/
theorem image_bare_record_counterexample :
    badImage.red_channel.width ≠ badImage.green_channel.width ∧ ¬ badImage.WF := by
  constructor
  · decide
  · decide

theorem Matrix.new_filled_WF (w h : Nat) (v : T) : (Matrix.new_filled w h v).WF := by
  refine ⟨by simp [Matrix.new_filled], fun row hrow => ?_⟩
  simp only [Matrix.new_filled, List.mem_replicate] at hrow
  rw [hrow.2]
  simp [Matrix.new_filled]

/-- Amended C8: shape validation exists only at the matrix level —
`Matrix::from_vec` succeeds exactly when the data length is `width×height`
(and then yields a well-formed matrix) — and `Image::new` builds three
identically-shaped channels; but the `Image` type itself is a bare public
record admitting inconsistent instances, with no validated three-matrix
constructor. -/
theorem image_construction_amended :
    (∀ (w h : Nat) (d : List Nat), (Matrix.from_vec w h d).isSome ↔ d.length = w * h) ∧
    (∀ (w h : Nat) (d : List Nat) (m : Matrix Nat), Matrix.from_vec w h d = some m →
      m.WF ∧ m.width = w ∧ m.height = h) ∧
    (∀ (w h i : Nat) (fmt : PPMFormat), (Image.new w h i fmt).WF) ∧
    (∃ img : Image, img.red_channel.width ≠ img.green_channel.width) := by
  have hfv : ∀ (w h : Nat) (d : List Nat) (m : Matrix Nat), Matrix.from_vec w h d = some m →
      m.WF ∧ m.width = w ∧ m.height = h := by
    intro w h d m hm
    unfold Matrix.from_vec at hm
    split_ifs at hm with hne
    obtain rfl : (⟨w, h, (List.range h).map fun r => (d.drop (r * w)).take w⟩ : Matrix Nat)
        = m := by injection hm
    push_neg at hne
    refine ⟨⟨by simp, fun row hrow => ?_⟩, rfl, rfl⟩
    simp only [List.mem_map, List.mem_range] at hrow
    obtain ⟨r, hr, rfl⟩ := hrow
    show ((d.drop (r * w)).take w).length = w
    rw [List.length_take, List.length_drop, hne]
    have : r * w + w ≤ w * h := by
      calc r * w + w = (r + 1) * w := by ring
      _ ≤ h * w := Nat.mul_le_mul_right w hr
      _ = w * h := Nat.mul_comm h w
    omega
  refine ⟨?_, hfv, ?_, ⟨badImage, by decide⟩⟩
  · intro w h d
    unfold Matrix.from_vec
    split_ifs with hne
    · simp [hne]
    · push_neg at hne
      simp [hne]
  · intro w h i fmt
    exact ⟨Matrix.new_filled_WF w h 0, Matrix.new_filled_WF w h 0, Matrix.new_filled_WF w h 0,
      rfl, rfl, rfl, rfl, rfl, rfl⟩

/-! ### Claim C9 -/

theorem Image.scale_height_self (img : Image) (nw : Nat) (method : ScaleMethod)
    (bil : Nat → Nat → PixelRGB) : (img.scale nw img.height method bil).height = img.height := by
  unfold Image.scale
  split_ifs
  · rfl
  · cases method
    · rfl
    · rfl

theorem Image.crop_left_height (img : Image) (nw : Nat) :
    (img.crop_left nw).height = img.height := by
  unfold Image.crop_left
  split_ifs <;> rfl

theorem Image.crop_right_height (img : Image) (nw : Nat) :
    (img.crop_right nw).height = img.height := by
  unfold Image.crop_right
  split_ifs <;> rfl

theorem Image.crop_width_height (img : Image) (nw : Nat) (method : CropMethod)
    {img' : Image} (h : img.crop_width nw method = some img') :
    img'.height = img.height := by
  cases method
  all_goals simp only [Image.crop_width] at h
  all_goals try exact Option.noConfusion h
  · obtain rfl := Option.some.inj h
    exact img.crop_left_height nw
  · obtain rfl := Option.some.inj h
    exact img.crop_right_height nw
  · obtain rfl := Option.some.inj h
    rfl

/-- C9: `resize` fails (the source's `expect`, i.e. MissingCropMethod) when
an axis must shrink and no crop method is supplied for that axis, and it
succeeds with no crop methods at all when neither axis shrinks. -/
theorem resize_missing_crop_method (img : Image) (tw th : Nat) (method : ScaleMethod)
    (bil : Nat → Nat → PixelRGB) :
    (∀ cy, tw < img.width → img.resize tw th method bil none cy = none) ∧
    (∀ cx, th < img.height → img.resize tw th method bil cx none = none) ∧
    (img.width ≤ tw → img.height ≤ th →
      ∃ img', img.resize tw th method bil none none = some img') := by
  refine ⟨?_, ?_, ?_⟩
  · intro cy htw
    unfold Image.resize
    rw [if_neg (by omega), if_pos htw]
    rfl
  · intro cx hth
    unfold Image.resize
    split_ifs with h1 h2
    · simp only [Option.bind_eq_bind, Option.some_bind]
      rw [if_neg (by rw [img.scale_height_self tw method bil]; omega),
        if_pos (by rw [img.scale_height_self tw method bil]; exact hth)]
    · cases cx with
      | none => rfl
      | some m =>
        simp only [Option.bind_eq_bind]
        cases hcw : img.crop_width tw m with
        | none => rfl
        | some img1 =>
          simp only [Option.some_bind]
          rw [if_neg (by rw [img.crop_width_height tw m hcw]; omega),
            if_pos (by rw [img.crop_width_height tw m hcw]; exact hth)]
    · simp only [Option.bind_eq_bind, Option.some_bind]
      rw [if_neg (by omega), if_pos hth]
  · intro htw hth
    unfold Image.resize
    split_ifs with h1 h2
    · simp only [Option.bind_eq_bind, Option.some_bind]
      have hsh := img.scale_height_self tw method bil
      split_ifs with h3 h4
      · exact ⟨_, rfl⟩
      · rw [hsh] at h4
        omega
      · exact ⟨_, rfl⟩
    · omega
    · simp only [Option.bind_eq_bind, Option.some_bind]
      split_ifs with h3 h4
      · exact ⟨_, rfl⟩
      · omega
      · exact ⟨_, rfl⟩

/-- Witness for C9: on `img33` (3×3), shrinking either axis without its crop
method fails, and growing both axes needs no crop method. -/
theorem resize_missing_crop_method_witness :
    (2 < img33.width → img33.resize 2 3 .Linear (fun _ _ => ⟨0, 0, 0⟩) none none = none) ∧
    (2 < img33.height → img33.resize 3 2 .Linear (fun _ _ => ⟨0, 0, 0⟩) none none = none) ∧
    (img33.width ≤ 5 ∧ img33.height ≤ 5 ∧
      ∃ img', img33.resize 5 5 .Linear (fun _ _ => ⟨0, 0, 0⟩) none none = some img') :=
  ⟨fun h => (resize_missing_crop_method img33 2 3 .Linear (fun _ _ => ⟨0, 0, 0⟩)).1 none h,
   fun h => (resize_missing_crop_method img33 3 2 .Linear (fun _ _ => ⟨0, 0, 0⟩)).2.1 none h,
   by decide, by decide,
   (resize_missing_crop_method img33 5 5 .Linear (fun _ _ => ⟨0, 0, 0⟩)).2.2
     (by decide) (by decide)⟩

/-! ### Claim C5: shape preservation of every image-level operation -/

theorem foldl_preserve_mem {α β : Type} (P : α → Prop) (f : α → β → α) :
    ∀ (l : List β), (∀ a b, b ∈ l → P a → P (f a b)) → ∀ (a : α), P a → P (l.foldl f a)
  | [], _, _, ha => ha
  | b :: l, hf, a, ha =>
    foldl_preserve_mem P f l (fun a' b' hb' ha' => hf a' b' (List.mem_cons_of_mem b hb') ha')
      (f a b) (hf a b (List.mem_cons_self b l) ha)

theorem listSwap_length {α : Type} [Inhabited α] (l : List α) (i j : Nat) :
    (listSwap l i j).length = l.length := by
  simp [listSwap]

theorem mem_listSwap {α : Type} [Inhabited α] {l : List α} {i j : Nat} {x : α}
    (hx : x ∈ listSwap l i j) (hi : i < l.length) (hj : j < l.length) : x ∈ l := by
  unfold listSwap at hx
  rcases List.mem_or_eq_of_mem_set hx with hx | rfl
  · rcases List.mem_or_eq_of_mem_set hx with hx | rfl
    · exact hx
    · rw [getD_eq_getElem' _ _ hj]
      exact l.getElem_mem hj
  · rw [getD_eq_getElem' _ _ hi]
    exact l.getElem_mem hi

theorem Matrix.mirror_y_preserves_WF {T : Type} [Inhabited T] {m : Matrix T} (hm : m.WF) :
    m.mirror_y.WF := by
  obtain ⟨hlen, hrow⟩ := hm
  refine ⟨by simpa [Matrix.mirror_y] using hlen, fun row hmem => ?_⟩
  simp only [Matrix.mirror_y, List.mem_map] at hmem
  obtain ⟨row₀, hmem₀, rfl⟩ := hmem
  show _ = m.width
  have hpres := foldl_preserve_mem (fun l : List T => l.length = row₀.length)
    (fun row c => listSwap row c (m.width - 1 - c)) (List.range (m.width / 2))
    (fun a b _ ha => by
      show (listSwap a b (m.width - 1 - b)).length = row₀.length
      rw [listSwap_length]
      exact ha) row₀ rfl
  rw [hpres, hrow _ hmem₀]

theorem Matrix.mirror_x_preserves_WF {T : Type} [Inhabited T] {m : Matrix T} (hm : m.WF) :
    m.mirror_x.WF := by
  obtain ⟨hlen, hrow⟩ := hm
  have key := foldl_preserve_mem
    (fun d : List (List T) => d.length = m.datum.length ∧ ∀ row ∈ d, row.length = m.width)
    (fun d r => listSwap d r (m.height - 1 - r))
    (List.range (m.height / 2))
    (fun d r hr ⟨hdl, hdr⟩ => by
      rw [List.mem_range] at hr
      have hrd : r < d.length := by
        rw [hdl, hlen]
        omega
      have hrd2 : m.height - 1 - r < d.length := by
        rw [hdl, hlen]
        omega
      exact ⟨by rw [listSwap_length]; exact hdl,
        fun row hmem => hdr _ (mem_listSwap hmem hrd hrd2)⟩)
    m.datum ⟨rfl, hrow⟩
  obtain ⟨k1, k2⟩ := key
  constructor
  · show (List.foldl (fun d r => listSwap d r (m.height - 1 - r))
      m.datum (List.range (m.height / 2))).length = m.height
    rw [k1, hlen]
  · exact k2

theorem Image.rotate_left_WF {img : Image} (hwf : img.WF) : img.rotate_left.WF := by
  unfold Image.rotate_left
  split_ifs
  · exact hwf
  · exact ⟨Matrix.ofFn_WF _ _ _, Matrix.ofFn_WF _ _ _, Matrix.ofFn_WF _ _ _,
      rfl, rfl, rfl, rfl, rfl, rfl⟩

theorem Image.rotate_right_WF {img : Image} (hwf : img.WF) : img.rotate_right.WF := by
  unfold Image.rotate_right
  split_ifs
  · exact hwf
  · exact ⟨Matrix.ofFn_WF _ _ _, Matrix.ofFn_WF _ _ _, Matrix.ofFn_WF _ _ _,
      rfl, rfl, rfl, rfl, rfl, rfl⟩

theorem Image.mirror_x_WF {img : Image} (hwf : img.WF) : img.mirror_x.WF := by
  obtain ⟨h1, h2, h3, h4, h5, h6, h7, h8, h9⟩ := hwf
  exact ⟨Matrix.mirror_x_preserves_WF h1, Matrix.mirror_x_preserves_WF h2, Matrix.mirror_x_preserves_WF h3,
    h4, h5, h6, h7, h8, h9⟩

theorem Image.mirror_y_WF {img : Image} (hwf : img.WF) : img.mirror_y.WF := by
  obtain ⟨h1, h2, h3, h4, h5, h6, h7, h8, h9⟩ := hwf
  exact ⟨Matrix.mirror_y_preserves_WF h1, Matrix.mirror_y_preserves_WF h2, Matrix.mirror_y_preserves_WF h3,
    h4, h5, h6, h7, h8, h9⟩

theorem Image.transpose_WF {img : Image} (hwf : img.WF) : img.transpose.WF := by
  obtain ⟨h1, h2, h3, h4, h5, h6, h7, h8, h9⟩ := hwf
  refine ⟨Matrix.ofFn_WF _ _ _, Matrix.ofFn_WF _ _ _, Matrix.ofFn_WF _ _ _, ?_, ?_, ?_, ?_, ?_, ?_⟩
  · show img.red_channel.height = img.height
    exact h5
  · show img.red_channel.width = img.width
    exact h4
  · show img.green_channel.height = img.height
    exact h7
  · show img.green_channel.width = img.width
    exact h6
  · show img.blue_channel.height = img.height
    exact h9
  · show img.blue_channel.width = img.width
    exact h8

/-- A matrix whose rows are all rewritten by an in-row shift keeps its
shape. -/
theorem crop_shift_WF {m : Matrix Nat} (hm : m.WF) (off k : Nat) :
    (⟨m.width, m.height, m.datum.map fun row => shiftLoop off k row 0⟩ : Matrix Nat).WF := by
  obtain ⟨hlen, hrow⟩ := hm
  refine ⟨by simpa using hlen, fun row hmem => ?_⟩
  simp only [List.mem_map] at hmem
  obtain ⟨row₀, hmem₀, rfl⟩ := hmem
  show (shiftLoop off k row₀ 0).length = m.width
  rw [shiftLoop_length, hrow _ hmem₀]

theorem Image.crop_left_WF {img : Image} (hwf : img.WF) (nw : Nat) :
    (img.crop_left nw).WF := by
  obtain ⟨h1, h2, h3, h4, h5, h6, h7, h8, h9⟩ := hwf
  unfold Image.crop_left
  split_ifs with hguard
  · exact ⟨h1, h2, h3, h4, h5, h6, h7, h8, h9⟩
  · push_neg at hguard
    have hnw : nw ≤ img.width := le_of_lt hguard.1
    refine ⟨?_, ?_, ?_, rfl, ?_, rfl, ?_, rfl, ?_⟩
    · exact Matrix.trim_width_WF (crop_shift_WF h1 (img.width - nw) nw)
        (by rw [h4]; exact hnw)
    · exact Matrix.trim_width_WF (crop_shift_WF h2 (img.width - nw) nw)
        (by rw [h6]; exact hnw)
    · exact Matrix.trim_width_WF (crop_shift_WF h3 (img.width - nw) nw)
        (by rw [h8]; exact hnw)
    · exact h5
    · exact h7
    · exact h9

theorem Image.crop_right_WF {img : Image} (hwf : img.WF) (nw : Nat) :
    (img.crop_right nw).WF := by
  obtain ⟨h1, h2, h3, h4, h5, h6, h7, h8, h9⟩ := hwf
  unfold Image.crop_right
  split_ifs with hguard
  · exact ⟨h1, h2, h3, h4, h5, h6, h7, h8, h9⟩
  · push_neg at hguard
    exact ⟨Matrix.trim_width_WF h1 (by omega), Matrix.trim_width_WF h2 (by omega),
      Matrix.trim_width_WF h3 (by omega), rfl, h5, rfl, h7, rfl, h9⟩

theorem crop_top_channel_WF {m : Matrix Nat} (hm : m.WF) {h nh : Nat}
    (hmh : m.height = h) (hlt : nh < h) :
    (⟨m.width, nh, (shiftLoop (h - nh) nh m.datum 0).take nh⟩ : Matrix Nat).WF := by
  apply Matrix.WF_of_getD
  · show ((shiftLoop (h - nh) nh m.datum 0).take nh).length = nh
    rw [List.length_take, shiftLoop_length, hm.1, hmh]
    omega
  · intro i hi
    have hi' : i < nh := hi
    show (((shiftLoop (h - nh) nh m.datum 0).take nh).getD i []).length = m.width
    rw [getD_take _ _ _ _ hi']
    rw [show ([] : List Nat) = (default : List Nat) from rfl]
    rw [shiftLoop_getD (h - nh) (by omega), if_pos ⟨by omega, by omega⟩]
    rw [show (default : List Nat) = ([] : List Nat) from rfl]
    exact Matrix.WF_row_length hm (by omega)

theorem Image.crop_top_WF {img : Image} (hwf : img.WF) (nh : Nat) :
    (img.crop_top nh).WF := by
  obtain ⟨h1, h2, h3, h4, h5, h6, h7, h8, h9⟩ := hwf
  unfold Image.crop_top
  split_ifs with hguard
  · exact ⟨h1, h2, h3, h4, h5, h6, h7, h8, h9⟩
  · push_neg at hguard
    exact ⟨crop_top_channel_WF h1 h5 hguard.1, crop_top_channel_WF h2 h7 hguard.1,
      crop_top_channel_WF h3 h9 hguard.1, h4, rfl, h6, rfl, h8, rfl⟩

theorem crop_bottom_channel_WF {m : Matrix Nat} (hm : m.WF) {h nh : Nat}
    (hmh : m.height = h) (hlt : nh < h) :
    (⟨m.width, nh, m.datum.take nh⟩ : Matrix Nat).WF := by
  refine ⟨?_, fun row hmem => hm.2 row (List.take_subset _ _ hmem)⟩
  show (m.datum.take nh).length = nh
  rw [List.length_take, hm.1, hmh]
  omega

theorem Image.crop_bottom_WF {img : Image} (hwf : img.WF) (nh : Nat) :
    (img.crop_bottom nh).WF := by
  obtain ⟨h1, h2, h3, h4, h5, h6, h7, h8, h9⟩ := hwf
  unfold Image.crop_bottom
  split_ifs with hguard
  · exact ⟨h1, h2, h3, h4, h5, h6, h7, h8, h9⟩
  · push_neg at hguard
    exact ⟨crop_bottom_channel_WF h1 h5 hguard.1, crop_bottom_channel_WF h2 h7 hguard.1,
      crop_bottom_channel_WF h3 h9 hguard.1, h4, rfl, h6, rfl, h8, rfl⟩

theorem Image.crop_rect_WF (img : Image) (nw nh xo yo : Nat) :
    (img.crop_rect nw nh xo yo).WF :=
  ⟨Matrix.ofFn_WF _ _ _, Matrix.ofFn_WF _ _ _, Matrix.ofFn_WF _ _ _,
    rfl, rfl, rfl, rfl, rfl, rfl⟩

theorem Image.crop_width_WF {img : Image} (hwf : img.WF) (nw : Nat) (method : CropMethod)
    {img' : Image} (h : img.crop_width nw method = some img') : img'.WF := by
  cases method
  all_goals simp only [Image.crop_width] at h
  all_goals try exact Option.noConfusion h
  · obtain rfl := Option.some.inj h
    exact Image.crop_left_WF hwf nw
  · obtain rfl := Option.some.inj h
    exact Image.crop_right_WF hwf nw
  · obtain rfl := Option.some.inj h
    exact img.crop_rect_WF nw img.height ((img.width - nw) / 2) 0

theorem Image.crop_height_WF {img : Image} (hwf : img.WF) (nh : Nat) (method : CropMethod)
    {img' : Image} (h : img.crop_height nh method = some img') : img'.WF := by
  cases method
  all_goals simp only [Image.crop_height] at h
  all_goals try exact Option.noConfusion h
  · obtain rfl := Option.some.inj h
    exact Image.crop_top_WF hwf nh
  · obtain rfl := Option.some.inj h
    exact Image.crop_bottom_WF hwf nh
  · obtain rfl := Option.some.inj h
    exact img.crop_rect_WF img.width nh 0 ((img.height - nh) / 2)

theorem Image.scale_WF {img : Image} (hwf : img.WF) (nw nh : Nat) (method : ScaleMethod)
    (bil : Nat → Nat → PixelRGB) : (img.scale nw nh method bil).WF := by
  unfold Image.scale
  split_ifs
  · exact hwf
  · cases method
    · exact ⟨Matrix.ofFn_WF _ _ _, Matrix.ofFn_WF _ _ _, Matrix.ofFn_WF _ _ _,
        rfl, rfl, rfl, rfl, rfl, rfl⟩
    · exact ⟨Matrix.ofFn_WF _ _ _, Matrix.ofFn_WF _ _ _, Matrix.ofFn_WF _ _ _,
        rfl, rfl, rfl, rfl, rfl, rfl⟩

theorem Matrix.setAt_WF {m : Matrix Nat} (hm : m.WF) {r : Nat} (c : Nat) (v : Nat)
    (hr : r < m.height) : (m.setAt r c v).WF := by
  apply Matrix.WF_of_getD
  · show (m.datum.set r _).length = m.height
    rw [List.length_set]
    exact hm.1
  · intro i hi
    show ((m.datum.set r ((m.datum.getD r []).set c v)).getD i []).length = m.width
    by_cases hir : r = i
    · subst hir
      rw [getD_set_self']
      rw [if_pos (by rw [hm.1]; exact hr), List.length_set]
      exact Matrix.WF_row_length hm hr
    · rw [getD_set_ne' _ _ _ hir]
      exact Matrix.WF_row_length hm hi

theorem Image.set_pixel_WF {img : Image} (hwf : img.WF) (r c : Nat) (color : PixelRGB) :
    (img.set_pixel r c color).WF := by
  obtain ⟨h1, h2, h3, h4, h5, h6, h7, h8, h9⟩ := hwf
  unfold Image.set_pixel
  split_ifs with hguard
  · exact ⟨Matrix.setAt_WF h1 c color.r (by omega), Matrix.setAt_WF h2 c color.g (by omega),
      Matrix.setAt_WF h3 c color.b (by omega), h4, h5, h6, h7, h8, h9⟩
  · exact ⟨h1, h2, h3, h4, h5, h6, h7, h8, h9⟩

theorem Image.remove_none_of_zero (img : Image) (hz : img.width = 0 ∨ img.height = 0) :
    img.remove_vertical_seam = none := by
  unfold Image.remove_vertical_seam Image.minimal_vertical_seam Image.vertical_cost Image.energy
  rw [if_pos hz]
  rfl

theorem Image.remove_WF {img : Image} (hwf : img.WF) {img' : Image}
    (h : img.remove_vertical_seam = some img') : img'.WF := by
  by_cases hz : img.width = 0 ∨ img.height = 0
  · rw [Image.remove_none_of_zero img hz] at h
    exact Option.noConfusion h
  · push_neg at hz
    obtain ⟨s, img'', -, h2, -, -, hWF, -⟩ :=
      remove_spec_aux img hwf (by omega) (by omega)
    rw [h2] at h
    obtain rfl := Option.some.inj h
    exact hWF

/-- C5: every image-level operation — rotations, mirrors, transpose, the
crops, scale (both methods, the bilinear pixel kernel abstracted), seam
removal and pixel writes — preserves the invariant that the three channel
matrices are well formed with width and height equal to the image's own
fields.  The conjuncts for `transpose`, `crop_rect`, `crop_width` and
`crop_height` carry the in-range hypotheses under which the source reaches
its post-state (outside them it panics, leaving no observable instant). -/
theorem image_ops_preserve_channel_shape (img : Image) (hwf : img.WF) :
    img.rotate_left.WF ∧ img.rotate_right.WF ∧
    img.mirror_x.WF ∧ img.mirror_y.WF ∧
    (1 ≤ img.width → 1 ≤ img.height → img.transpose.WF) ∧
    (∀ nw, (img.crop_left nw).WF) ∧
    (∀ nw, (img.crop_right nw).WF) ∧
    (∀ nh, (img.crop_top nh).WF) ∧
    (∀ nh, (img.crop_bottom nh).WF) ∧
    (∀ nw nh xo yo, xo + nw ≤ img.width → yo + nh ≤ img.height →
      (img.crop_rect nw nh xo yo).WF) ∧
    (∀ nw method img', img.crop_width nw method = some img' → nw ≤ img.width → img'.WF) ∧
    (∀ nh method img', img.crop_height nh method = some img' → nh ≤ img.height → img'.WF) ∧
    (∀ nw nh method bil, (img.scale nw nh method bil).WF) ∧
    (∀ img', img.remove_vertical_seam = some img' → img'.WF) ∧
    (∀ r c color, (img.set_pixel r c color).WF) :=
  ⟨Image.rotate_left_WF hwf, Image.rotate_right_WF hwf,
   Image.mirror_x_WF hwf, Image.mirror_y_WF hwf,
   fun _ _ => Image.transpose_WF hwf,
   fun nw => Image.crop_left_WF hwf nw,
   fun nw => Image.crop_right_WF hwf nw,
   fun nh => Image.crop_top_WF hwf nh,
   fun nh => Image.crop_bottom_WF hwf nh,
   fun nw nh xo yo _ _ => img.crop_rect_WF nw nh xo yo,
   fun nw method _img' h _ => Image.crop_width_WF hwf nw method h,
   fun nh method _img' h _ => Image.crop_height_WF hwf nh method h,
   fun nw nh method bil => Image.scale_WF hwf nw nh method bil,
   fun _img' h => Image.remove_WF hwf h,
   fun r c color => Image.set_pixel_WF hwf r c color⟩

/-- Witness for C5 at the concrete image `img43`. -/
theorem image_ops_preserve_channel_shape_witness :
    img43.WF ∧
    (img43.rotate_left.WF ∧ img43.rotate_right.WF ∧
    img43.mirror_x.WF ∧ img43.mirror_y.WF ∧
    (1 ≤ img43.width → 1 ≤ img43.height → img43.transpose.WF) ∧
    (∀ nw, (img43.crop_left nw).WF) ∧
    (∀ nw, (img43.crop_right nw).WF) ∧
    (∀ nh, (img43.crop_top nh).WF) ∧
    (∀ nh, (img43.crop_bottom nh).WF) ∧
    (∀ nw nh xo yo, xo + nw ≤ img43.width → yo + nh ≤ img43.height →
      (img43.crop_rect nw nh xo yo).WF) ∧
    (∀ nw method img', img43.crop_width nw method = some img' → nw ≤ img43.width → img'.WF) ∧
    (∀ nh method img', img43.crop_height nh method = some img' → nh ≤ img43.height → img'.WF) ∧
    (∀ nw nh method bil, (img43.scale nw nh method bil).WF) ∧
    (∀ img', img43.remove_vertical_seam = some img' → img'.WF) ∧
    (∀ r c color, (img43.set_pixel r c color).WF)) :=
  ⟨by decide, image_ops_preserve_channel_shape img43 (by decide)⟩

end Snap
